import Mathlib

/-! # Distance transform (`distance-transform.cpp`)

A shallow embedding of the squared Euclidean distance transform of
`distance-transform.cpp` (`intersect`, `dt_1d`, `dt_2d`) and of the pixel loops of
its `main` (boundary extraction, sign fixup, quantisation), with the properties
proved about them.

Conventions of the embedding.

* `float` arithmetic is taken exactly: values live in a linearly ordered field `K`
  (`ℚ` for evaluation, `ℝ` where a square root is needed). The square root of
  `main` is a parameter of the embedding; the theorems take `Real.sqrt` for it.
* Memory reached through a pointer (`f`, `dst`, `src`, `bits`, `temp`) is a total
  map from index to value; its extent is the caller's business.
* Local arrays of a declared size (`v`, `z` in `dt_1d`; `f`, `tmp` in `dt_2d`) are
  bounds-checked: an access outside the declared size makes the function return
  `none`. The cells of `v` and `z` are `Option`-valued, `none` being a cell that has
  not been written yet, so reading such a cell fails as well.
* A `for (i = 0; i < n; ++i)` loop is `forRange n body`, the state after `n`
  iterations; the two `while` loops of `dt_1d` are `popLoop` and `advance`.
* `int` is 32 bits wide. The index arithmetic of `dt_1d` and `dt_2d` stays far
  below that on lines of at most `DT_MAX_DIMENSION` cells and is done on `ℕ`/`ℤ`;
  the one conversion from a floating value to `int`, in `main`, is `toInt`, which
  is `none` when the value does not fit.
* File input and output of `main` (`loadBitmap`, `saveBitmap`, `fopen`) are left
  out; `main` below is the computation between them.
-/

namespace DistanceTransform

/-! ## The source: loops and arrays -/

/-- The state reached by `for (i = 0; i < n; ++i) body(i)`, started in state `s`;
`none` as soon as one iteration fails. -/
def forRange {σ : Type} : Nat → (Nat → σ → Option σ) → σ → Option σ
  | 0, _, s => some s
  | n + 1, body, s => (forRange n body s).bind (body n)

/-- The nested loops `for (y = 0; y < h; ++y) for (x = 0; x < w; ++x) body(x, y)`
of `main`. -/
def forPixels {σ : Type} (w h : Nat) (body : Nat → Nat → σ → Option σ) (s : σ) : Option σ :=
  forRange h (fun y s => forRange w (fun x s => body x y s) s) s

/-- Checked write `b[i] = x` into a local array of `size` cells. -/
def store {α : Type} (size : Nat) (b : Nat → Option α) (i : Nat) (x : α) :
    Option (Nat → Option α) :=
  if i < size then some (Function.update b i (some x)) else none

/-- The bound `#define DT_MAX_DIMENSION 4096`. -/
def DT_MAX_DIMENSION : Nat := 4096

/-- The smallest 32-bit `int`. -/
def INT_MIN : ℤ := -2147483648

/-- The largest 32-bit `int`. -/
def INT_MAX : ℤ := 2147483647

/-- The macro `C(x, y)` of `main`: `bits[y * pitch + x] > 128` inside the image,
`0` outside. -/
def C (bits : Nat → Nat) (w h pitch : Nat) (x y : ℤ) : ℤ :=
  if x ≥ 0 ∧ x < (w : ℤ) ∧ y ≥ 0 ∧ y < (h : ℤ) then
    (if bits (y * (pitch : ℤ) + x).toNat > 128 then 1 else 0)
  else 0

/-- The condition of the `if` in the boundary extraction loop of `main`, with
`v = C(x, y)`:
`v && C(x - 1, y) != v || C(x + 1, y) != v || C(x, y - 1) != v || C(x, y + 1) != v`.
In C `&&` binds tighter than `||`, so `v &&` guards the first comparison only. -/
def boundaryTest (bits : Nat → Nat) (w h pitch : Nat) (x y : Nat) : Bool :=
  let v := C bits w h pitch x y
  decide ((v ≠ 0 ∧ C bits w h pitch ((x : ℤ) - 1) y ≠ v) ∨ C bits w h pitch ((x : ℤ) + 1) y ≠ v ∨
    C bits w h pitch x ((y : ℤ) - 1) ≠ v ∨ C bits w h pitch x ((y : ℤ) + 1) ≠ v)

section Source

variable {K : Type}

/-- The copy-in loop `for (i = 0; i < n; ++i) f[i] = src[idx i];` into the local
array `f`. -/
def gather (src : Nat → K) (idx : Nat → Nat) (n : Nat) (f : Nat → K) : Option (Nat → K) :=
  forRange n (fun i b =>
    if i < DT_MAX_DIMENSION then some (Function.update b i (src (idx i))) else none) f

/-- The copy-out loop `for (i = 0; i < n; ++i) dst[idx i] = tmp[i];` from the local
array `tmp`. -/
def scatter (tmp : Nat → K) (idx : Nat → Nat) (n : Nat) (dst : Nat → K) : Option (Nat → K) :=
  forRange n (fun i d =>
    if i < DT_MAX_DIMENSION then some (Function.update d (idx i) (tmp i)) else none) dst

variable [LinearOrderedField K]

/-! ## The source: `intersect`, `dt_1d` -/

/-- The sentinel `#define DT_INF 1e30f`. -/
def DT_INF : K := 1000000000000000000000000000000

/-- The function `intersect(f, p, q)`:
`((f[p] + p * p) - (f[q] + q * q)) / (2 * p - 2 * q)`; the products and the
denominator are computed on `int` and then converted. -/
def intersect (f : Nat → K) (p q : Nat) : K :=
  ((f p + ((p * p : Nat) : K)) - (f q + ((q * q : Nat) : K))) /
    ((2 * (p : ℤ) - 2 * (q : ℤ) : ℤ) : K)

/-- The locals of `dt_1d`: the index `k` of the rightmost parabola, the array
`int v[DT_MAX_DIMENSION]` and the array `float z[DT_MAX_DIMENSION + 1]`. -/
structure Envelope (K : Type) where
  k : Nat
  v : Nat → Option Nat
  z : Nat → Option K

/-- The locals after `k = 0; v[0] = 0; z[0] = -DT_INF; z[1] = +DT_INF;`. -/
def Envelope.init : Envelope K where
  k := 0
  v := Function.update (fun _ => none) 0 (some 0)
  z := Function.update (Function.update (fun _ => none) 0 (some (-DT_INF))) 1 (some DT_INF)

/-- The inner loop of the construction,
`s = intersect(f, q, v[k]); while (s <= z[k]) { k--; s = intersect(f, q, v[k]); }`,
started at index `k`; it returns the final `k` and `s`. When the test succeeds at
`k = 0` the code decrements `k` to `-1` and reads `v[-1]`: that is `none`. -/
def popLoop (f : Nat → K) (q : Nat) (v : Nat → Option Nat) (z : Nat → Option K) :
    Nat → Option (Nat × K)
  | 0 => do
    let p ← v 0
    let b ← z 0
    if intersect f q p ≤ b then none else some (0, intersect f q p)
  | k + 1 => do
    let p ← v (k + 1)
    let b ← z (k + 1)
    if intersect f q p ≤ b then popLoop f q v z k else some (k + 1, intersect f q p)

/-- One iteration of the construction loop of `dt_1d`, for the candidate `q`:
the inner loop, then `k++; v[k] = q; z[k] = s; z[k + 1] = +DT_INF;`. -/
def pushCandidate (f : Nat → K) (q : Nat) (e : Envelope K) : Option (Envelope K) := do
  let r ← popLoop f q e.v e.z e.k
  let k := r.1 + 1
  let v ← store DT_MAX_DIMENSION e.v k q
  let z ← store (DT_MAX_DIMENSION + 1) e.z k r.2
  let z ← store (DT_MAX_DIMENSION + 1) z (k + 1) DT_INF
  some ⟨k, v, z⟩

/-- The locals of `dt_1d` after `for (int q = 1; q <= m; q++) { ... }`. -/
def lowerEnvelope (f : Nat → K) (m : Nat) : Option (Envelope K) :=
  forRange m (fun i e => pushCandidate f (i + 1) e) Envelope.init

/-- The cursor loop `while (z[k + 1] < q) k++;` started at `k`. The first argument
is the number of cells of `z` left above `k`, `DT_MAX_DIMENSION - k`: when it is
`0` the read of `z[k + 1]` is outside the array. -/
def advance (z : Nat → Option K) (q : K) : Nat → Nat → Option Nat
  | 0, _ => none
  | fuel + 1, k => do
    let b ← z (k + 1)
    if b < q then advance z q fuel (k + 1) else some k

/-- One iteration of the evaluation loop of `dt_1d`, on the pair (cursor, `dst`):
`while (z[k + 1] < q) k++; dst[q] = (q - v[k]) * (q - v[k]) + f[v[k]];`. -/
def fillStep (f : Nat → K) (e : Envelope K) (q : Nat) (st : Nat × (Nat → K)) :
    Option (Nat × (Nat → K)) := do
  let k ← advance e.z (q : K) (DT_MAX_DIMENSION - st.1) st.1
  let p ← e.v k
  some (k, Function.update st.2 q (((((q : ℤ) - (p : ℤ)) * ((q : ℤ) - (p : ℤ)) : ℤ) : K) + f p))

/-- The function `dt_1d(dst, f, len)`; the result is the memory behind `dst` on
return. -/
def dt_1d (dst f : Nat → K) (len : ℤ) : Option (Nat → K) := do
  let e ← lowerEnvelope f (len - 1).toNat
  let r ← forRange len.toNat (fillStep f e) (0, dst)
  some r.2

/-! ## The source: `dt_2d` -/

/-- The memory `dt_2d` works on: the grid behind `dst` and the two local arrays
`float f[DT_MAX_DIMENSION]`, `float tmp[DT_MAX_DIMENSION]`. -/
structure Work (K : Type) where
  dst : Nat → K
  f : Nat → K
  tmp : Nat → K

/-- The body shared by the two passes of `dt_2d`, for the line whose `i`-th cell
is at `idx i`: copy the line in, `dt_1d(tmp, f, n)`, copy the result out. The
source grid is `srcOf dst`, a view of the current memory. -/
def lineStep (srcOf : (Nat → K) → (Nat → K)) (idx : Nat → Nat) (n : Nat) (st : Work K) :
    Option (Work K) := do
  let f ← gather (srcOf st.dst) idx n st.f
  let tmp ← dt_1d st.tmp f (n : ℤ)
  let dst ← scatter tmp idx n st.dst
  some ⟨dst, f, tmp⟩

/-- The two passes of `dt_2d`: rows (`transform x`, reading `src`), then columns
(`transform y`, reading `dst`). The local arrays start zeroed; no cell of them is
read before it is written. -/
def dt_2d_core (srcOf : (Nat → K) → (Nat → K)) (dst : Nat → K) (width height : Nat) :
    Option (Nat → K) := do
  let st ← forRange height (fun y st => lineStep srcOf (fun x => y * width + x) width st)
    ⟨dst, fun _ => 0, fun _ => 0⟩
  let st ← forRange width (fun x st => lineStep id (fun y => y * width + x) height st) st
  some st.dst

/-- The call `dt_2d(dst, src, width, height)` with `dst` and `src` two disjoint
grids; the result is the memory behind `dst` on return. -/
def dt_2d (dst src : Nat → K) (width height : Nat) : Option (Nat → K) :=
  dt_2d_core (fun _ => src) dst width height

/-- The call `dt_2d(temp, temp, width, height)` of `main`, where `dst` and `src`
are the same grid: every read of `src` sees the writes made to `dst` so far. -/
def dt_2d_inplace (temp : Nat → K) (width height : Nat) : Option (Nat → K) :=
  dt_2d_core id temp width height

/-! ## The source: the pixel loops of `main` -/

/-- The body of the boundary extraction loop of `main` at the pixel `(x, y)`:
`temp[y * w + x] = DT_INF; int v = C(x, y); if (...) temp[y * w + x] = 0;`. -/
def extractPixel (bits : Nat → Nat) (w h pitch : Nat) (x y : Nat) (temp : Nat → K) : Nat → K :=
  let temp1 := Function.update temp (y * w + x) DT_INF
  if boundaryTest bits w h pitch x y then Function.update temp1 (y * w + x) 0 else temp1

/-- The body of the distance fixup loop of `main` at the pixel `(x, y)`:
`d = sqrt(d); if (C(x, y)) d = -d - 0.5f;`. The square root is a parameter. -/
def fixupPixel (sqrt : K → K) (bits : Nat → Nat) (w h pitch : Nat) (x y : Nat) (temp : Nat → K) :
    Nat → K :=
  let d := temp (y * w + x)
  let d := sqrt d
  let d := if C bits w h pitch x y ≠ 0 then -d - 1 / 2 else d
  Function.update temp (y * w + x) d

variable [FloorRing K]

/-- The conversion `(int)x` of a floating value: truncation toward zero. The
conversion is undefined when the truncated value is not an `int`: that is `none`. -/
def toInt (x : K) : Option ℤ :=
  let t : ℤ := if 0 ≤ x then ⌊x⌋ else ⌈x⌉
  if INT_MIN ≤ t ∧ t ≤ INT_MAX then some t else none

/-- The convert-and-clamp step of `main` on a signed distance `d`:
`v = (int)(127.5 + d * scale)` with `scale = 4.0f`, then the two clamps. -/
def quantize (d : K) : Option ℤ := do
  let v ← toInt (127.5 + d * 4)
  let v := if v < 0 then 0 else v
  let v := if v > 255 then 255 else v
  some v

/-- The body of the convert-and-clamp loop of `main` at the pixel `(x, y)`, on the
memory behind `bits`. -/
def quantizePixel (temp : Nat → K) (w pitch : Nat) (x y : Nat) (bits : Nat → Nat) :
    Option (Nat → Nat) := do
  let v ← quantize (temp (y * w + x))
  some (Function.update bits (y * pitch + x) v.toNat)

/-- The pixel pipeline of `main` on a loaded image `bits` of `w × h` pixels and row
stride `pitch`: boundary extraction into `temp`, `dt_2d(temp, temp, w, h)`, the
distance fixup, the convert-and-clamp loop. The result is the memory behind `bits`
and behind `temp` when the loops are done. The block `malloc` returns is taken
zeroed; every cell of it is written before it is read. -/
def main (sqrt : K → K) (bits : Nat → Nat) (w h pitch : Nat) :
    Option ((Nat → Nat) × (Nat → K)) := do
  let temp ← forPixels w h (fun x y t => some (extractPixel bits w h pitch x y t)) (fun _ => 0)
  let temp ← dt_2d_inplace temp w h
  let temp ← forPixels w h (fun x y t => some (fixupPixel sqrt bits w h pitch x y t)) temp
  let bits ← forPixels w h (fun x y b => quantizePixel temp w pitch x y b) bits
  some (bits, temp)

end Source

/-! ## Step counters for the two inner loops of `dt_1d` -/

section Counting

variable {K : Type} [LinearOrderedField K]

/-- The number of times the body `{ k--; s = intersect(f, q, v[k]); }` of the inner
loop of the construction runs when the loop is started at index `k`: the recursion
of `popLoop`, counting one for every pass through the body. -/
def popSteps (f : Nat → K) (q : Nat) (v : Nat → Option Nat) (z : Nat → Option K) :
    Nat → Option Nat
  | 0 => do
    let p ← v 0
    let b ← z 0
    if intersect f q p ≤ b then none else some 0
  | k + 1 => do
    let p ← v (k + 1)
    let b ← z (k + 1)
    if intersect f q p ≤ b then (popSteps f q v z k).map (· + 1) else some 0

/-- The number of times the body of the inner loop runs in total during
`for (int q = 1; q <= m; q++) { ... }` of `dt_1d`. -/
def constructionSteps (f : Nat → K) : Nat → Option Nat
  | 0 => some 0
  | m + 1 => do
    let c ← constructionSteps f m
    let e ← lowerEnvelope f m
    let s ← popSteps f (m + 1) e.v e.z e.k
    some (c + s)

/-- The number of times the body `k++` of the cursor loop `while (z[k + 1] < q)`
runs when the loop is started at `k`: the recursion of `advance`, counting one for
every pass through the body. -/
def advanceSteps (z : Nat → Option K) (q : K) : Nat → Nat → Option Nat
  | 0, _ => none
  | fuel + 1, k => do
    let b ← z (k + 1)
    if b < q then (advanceSteps z q fuel (k + 1)).map (· + 1) else some 0

/-- The number of times the cursor advances in total during the first `m`
iterations of the evaluation loop of `dt_1d`, run on the locals `e`. -/
def evaluationSteps (f : Nat → K) (e : Envelope K) (dst : Nat → K) : Nat → Option Nat
  | 0 => some 0
  | m + 1 => do
    let c ← evaluationSteps f e dst m
    let st ← forRange m (fillStep f e) (0, dst)
    let a ← advanceSteps e.z (m : K) (DT_MAX_DIMENSION - st.1) st.1
    some (c + a)

end Counting

/-! ## Vocabulary of the specification -/

section Vocabulary

variable {K : Type} [LinearOrderedField K]

/-- The parabola rooted at `p`, evaluated at `x`: `(x - p)² + f[p]`. -/
def parabola (f : Nat → K) (p : Nat) (x : K) : K := (x - (p : K)) ^ 2 + f p

/-- The value `y` is the minimum over `p ∈ [0, n)` of `(q - p)² + f[p]`. -/
def IsMinAt (f : Nat → K) (n q : Nat) (y : K) : Prop :=
  (∃ p, p < n ∧ y = parabola f p (q : K)) ∧ ∀ p, p < n → y ≤ parabola f p (q : K)

/-- The value `d` is the minimum over the grid of
`(x - px)² + (y - py)² + f[py * width + px]`. -/
def IsMin2D (f : Nat → K) (width height x y : Nat) (d : K) : Prop :=
  (∃ px py, px < width ∧ py < height ∧
      d = ((x : K) - (px : K)) ^ 2 + ((y : K) - (py : K)) ^ 2 + f (py * width + px)) ∧
    ∀ px py, px < width → py < height →
      d ≤ ((x : K) - (px : K)) ^ 2 + ((y : K) - (py : K)) ^ 2 + f (py * width + px)

/-- The content of `v[i]` (`0` for a cell never written). -/
def Envelope.apex (e : Envelope K) (i : Nat) : Nat := (e.v i).getD 0

/-- The content of `z[i]` (`0` for a cell never written). -/
def Envelope.boundary (e : Envelope K) (i : Nat) : K := (e.z i).getD 0

/-- The envelope written by one iteration of the construction loop that stopped
its inner loop at index `j` with intersection `s`. -/
def Envelope.push (e : Envelope K) (j q : Nat) (s : K) : Envelope K where
  k := j + 1
  v := Function.update e.v (j + 1) (some q)
  z := Function.update (Function.update e.z (j + 1) (some s)) (j + 1 + 1) (some DT_INF)

/-- The state of the locals of `dt_1d` once the candidates `0, …, m` have been
processed. -/
structure EnvInv (f : Nat → K) (m : Nat) (e : Envelope K) : Prop where
  k_le : e.k ≤ m
  v_some : ∀ i, i ≤ e.k → e.v i = some (e.apex i)
  z_some : ∀ i, i ≤ e.k + 1 → e.z i = some (e.boundary i)
  v_zero : e.apex 0 = 0
  v_top : e.apex e.k = m
  v_mono : ∀ i j, i < j → j ≤ e.k → e.apex i < e.apex j
  z_zero : e.boundary 0 = -DT_INF
  z_top : e.boundary (e.k + 1) = DT_INF
  z_mono : ∀ i j, i < j → j ≤ e.k + 1 → e.boundary i < e.boundary j
  lower : ∀ i, i ≤ e.k → ∀ x : K, (i = 0 ∨ e.boundary i ≤ x) →
    (i = e.k ∨ x ≤ e.boundary (i + 1)) → ∀ p, p ≤ m → parabola f (e.apex i) x ≤ parabola f p x

end Vocabulary

/-- The pixel `(x, y)`, possibly off the grid, is a foreground pixel of the image:
it lies on the grid and its intensity is above 128. -/
def Foreground (bits : Nat → Nat) (w h pitch : Nat) (x y : ℤ) : Prop :=
  0 ≤ x ∧ x < (w : ℤ) ∧ 0 ≤ y ∧ y < (h : ℤ) ∧ 128 < bits (y * (pitch : ℤ) + x).toNat

/-- The `N × N` grid `d` is invariant under the transposition `(x, y) ↦ (y, x)` and
under the two mirror images `x ↦ N - 1 - x`, `y ↦ N - 1 - y`, which generate the
symmetries of the square. -/
def IsSymmetric {K : Type} (N : Nat) (d : Nat → K) : Prop :=
  ∀ x y, x < N → y < N →
    d (y * N + x) = d (x * N + y) ∧ d (y * N + x) = d (y * N + (N - 1 - x)) ∧
      d (y * N + x) = d ((N - 1 - y) * N + x)

/-! ## Concrete inputs -/

/-- A line of three costs with a single seed: `0` at index `1`, the sentinel at
the two ends. -/
def seedLine : Nat → ℚ := fun p => if p = 1 then 0 else DT_INF

/-- A `3 × 3` cost grid with a single seed at the centre. -/
def seedGrid : Nat → ℚ := fun i => if i = 4 then 0 else DT_INF

/-- A `2 × 1` image (stride `4`): a background pixel followed by a foreground
pixel. -/
def twoPixels : Nat → Nat := fun i => if i = 1 then 255 else 0

/-- An image whose every byte is foreground. -/
def allForeground : Nat → Nat := fun _ => 255

/-- The `5 × 5` image (stride `8`) of the end-to-end scenario: every pixel is `0`
except the centre pixel `(2, 2)`, which is `255`. -/
def centreDot : Nat → Nat := fun i => if i = 2 * 8 + 2 then 255 else 0

/-- A line of two costs whose first entry, `3e30`, is above the sentinel. -/
def hugeHead : Nat → ℚ := fun p => if p = 0 then 3 * DT_INF else 0

/-- A line of three costs whose parabolas meet in one point: `[0, 1, 0]`. -/
def tieLine : Nat → ℚ := fun p => if p = 1 then 1 else 0

/-! ## Loops -/

section Loops

variable {K : Type}

theorem forRange_succ {σ : Type} (n : Nat) (body : Nat → σ → Option σ) (s : σ) :
    forRange (n + 1) body s = (forRange n body s).bind (body n) := rfl

/-- Invariant rule for `forRange`. -/
theorem forRange_inv {σ : Type} (P : Nat → σ → Prop) (n : Nat) (body : Nat → σ → Option σ)
    (s0 : σ) (h0 : P 0 s0)
    (hstep : ∀ i, i < n → ∀ s, P i s → ∃ t, body i s = some t ∧ P (i + 1) t) :
    ∃ t, forRange n body s0 = some t ∧ P n t := by
  induction n with
  | zero => exact ⟨s0, rfl, h0⟩
  | succ n ih =>
    obtain ⟨s, hs, hP⟩ := ih (fun i hi s hs => hstep i (Nat.lt_succ_of_lt hi) s hs)
    obtain ⟨t, ht, hQ⟩ := hstep n (Nat.lt_succ_self n) s hP
    exact ⟨t, by rw [forRange_succ, hs]; exact ht, hQ⟩

/-- A `for` loop one of whose iterations fails in every state fails. -/
theorem forRange_fail {σ : Type} (n : Nat) (body : Nat → σ → Option σ) (s0 : σ) (i : Nat)
    (hi : i < n) (hfail : ∀ s, body i s = none) : forRange n body s0 = none := by
  induction n with
  | zero => exact absurd hi (Nat.not_lt_zero i)
  | succ n ih =>
    rw [forRange_succ]
    rcases Nat.lt_or_eq_of_le (Nat.le_of_lt_succ hi) with h | h
    · rw [ih h]; rfl
    · subst h
      cases hr : forRange i body s0 with
      | none => rfl
      | some s => exact hfail s

theorem cell_inj {w x y x2 y2 : Nat} (hx : x < w) (hx2 : x2 < w)
    (h : y * w + x = y2 * w + x2) : y = y2 ∧ x = x2 := by
  have hy : y = y2 := by
    rcases lt_trichotomy y y2 with hlt | heq | hgt
    · have : (y + 1) * w ≤ y2 * w := Nat.mul_le_mul_right w hlt
      rw [Nat.succ_mul] at this
      omega
    · exact heq
    · have : (y2 + 1) * w ≤ y * w := Nat.mul_le_mul_right w hgt
      rw [Nat.succ_mul] at this
      omega
  subst hy
  exact ⟨rfl, by omega⟩

/-- The pixel loops of `main` whose body rewrites the cell `y * s + x` of its
pixel `(x, y)` from the old content of that cell and touches nothing else: every
cell of the image is rewritten once, the rest of the memory is untouched. -/
theorem forPixels_spec {α : Type} (w h s : Nat) (hs : w ≤ s)
    (body : Nat → Nat → (Nat → α) → Option (Nat → α)) (G : Nat → Nat → α → α)
    (hbody : ∀ x y t, x < w → y < h → ∃ t2, body x y t = some t2 ∧
      t2 (y * s + x) = G x y (t (y * s + x)) ∧ ∀ a, a ≠ y * s + x → t2 a = t a)
    (t0 : Nat → α) :
    ∃ t, forPixels w h body t0 = some t ∧
      (∀ x y, x < w → y < h → t (y * s + x) = G x y (t0 (y * s + x))) ∧
      ∀ a, (∀ x y, x < w → y < h → a ≠ y * s + x) → t a = t0 a := by
  have key := forRange_inv
    (fun j (t : Nat → α) =>
      (∀ x y, x < w → y < j → t (y * s + x) = G x y (t0 (y * s + x))) ∧
      ∀ a, (∀ x y, x < w → y < j → a ≠ y * s + x) → t a = t0 a)
    h (fun y s => forRange w (fun x s => body x y s) s) t0
    ⟨fun x y _ hy => absurd hy (Nat.not_lt_zero y), fun _ _ => rfl⟩
    (fun j hj t ht => by
      obtain ⟨t2, h2, h3, h4⟩ := forRange_inv
        (fun i (u : Nat → α) =>
          (∀ x y, x < w → (y < j ∨ (y = j ∧ x < i)) → u (y * s + x) = G x y (t0 (y * s + x))) ∧
          ∀ a, (∀ x y, x < w → (y < j ∨ (y = j ∧ x < i)) → a ≠ y * s + x) → u a = t0 a)
        w (fun x s => body x j s) t
        ⟨fun x y hx hy => ht.1 x y hx (by omega),
          fun a ha => ht.2 a (fun x y hx hy => ha x y hx (Or.inl hy))⟩
        (fun i hi u hu => by
          obtain ⟨u2, hu1, hu2, hu3⟩ := hbody i j u hi hj
          have hfresh : u (j * s + i) = t0 (j * s + i) := by
            apply hu.2
            intro x y hx hy hc
            have := cell_inj (lt_of_lt_of_le hi hs) (lt_of_lt_of_le hx hs) hc
            omega
          refine ⟨u2, hu1, ?_, ?_⟩
          · intro x y hx hy
            by_cases hc : y = j ∧ x = i
            · rw [hc.1, hc.2, hu2, hfresh]
            · have hne : y * s + x ≠ j * s + i := by
                intro h
                have := cell_inj (lt_of_lt_of_le hx hs) (lt_of_lt_of_le hi hs) h
                omega
              rw [hu3 _ hne]
              exact hu.1 x y hx (by omega)
          · intro a ha
            rw [hu3 a (ha i j hi (Or.inr ⟨rfl, Nat.lt_succ_self i⟩))]
            exact hu.2 a (fun x y hx hy => ha x y hx (by omega)))
      refine ⟨t2, h2, ?_, ?_⟩
      · intro x y hx hy
        exact h3 x y hx (by omega)
      · intro a ha
        exact h4 a (fun x y hx hy => ha x y hx (by omega)))
  obtain ⟨t, ht, h1, h2⟩ := key
  exact ⟨t, ht, h1, h2⟩

/-- The pixel loops of `main` fail when the body fails at one pixel in every
state. -/
theorem forPixels_fail {σ : Type} (w h : Nat) (body : Nat → Nat → σ → Option σ) (s0 : σ)
    (x y : Nat) (hx : x < w) (hy : y < h) (hfail : ∀ s, body x y s = none) :
    forPixels w h body s0 = none :=
  forRange_fail h _ s0 y hy (fun s => forRange_fail w _ s x hx hfail)

theorem gather_spec (src : Nat → K) (idx : Nat → Nat) (n : Nat) (f : Nat → K)
    (hn : n ≤ DT_MAX_DIMENSION) :
    ∃ g, gather src idx n f = some g ∧ ∀ i, i < n → g i = src (idx i) := by
  unfold gather
  exact forRange_inv (fun j (g : Nat → K) => ∀ i, i < j → g i = src (idx i)) n
    (fun i b => if i < DT_MAX_DIMENSION then some (Function.update b i (src (idx i))) else none) f
    (fun i hi => absurd hi (Nat.not_lt_zero i))
    (fun j hj g hg => by
      refine ⟨_, if_pos (by omega), ?_⟩
      intro i hi
      by_cases h : i = j
      · subst h; simp
      · rw [Function.update_noteq h]; exact hg i (by omega))

theorem scatter_spec (tmp : Nat → K) (idx : Nat → Nat) (n : Nat) (dst : Nat → K)
    (hn : n ≤ DT_MAX_DIMENSION)
    (hinj : ∀ i j, i < n → j < n → idx i = idx j → i = j) :
    ∃ d, scatter tmp idx n dst = some d ∧ (∀ i, i < n → d (idx i) = tmp i) ∧
      ∀ a, (∀ i, i < n → a ≠ idx i) → d a = dst a := by
  unfold scatter
  obtain ⟨d, hd, h1, h2⟩ := forRange_inv
    (fun j (d : Nat → K) => (∀ i, i < j → d (idx i) = tmp i) ∧
      ∀ a, (∀ i, i < j → a ≠ idx i) → d a = dst a) n
    (fun i d => if i < DT_MAX_DIMENSION then some (Function.update d (idx i) (tmp i)) else none) dst
    ⟨fun i hi => absurd hi (Nat.not_lt_zero i), fun _ _ => rfl⟩
    (fun j hj d hd => by
      refine ⟨_, if_pos (by omega), ?_, ?_⟩
      · intro i hi
        by_cases h : i = j
        · subst h; simp
        · have hne : idx i ≠ idx j := fun hc => h (hinj i j (by omega) hj hc)
          rw [Function.update_noteq hne]; exact hd.1 i (by omega)
      · intro a ha
        rw [Function.update_noteq (ha j (Nat.lt_succ_self j))]
        exact hd.2 a (fun i hi => ha i (by omega)))
  exact ⟨d, hd, h1, h2⟩

end Loops

/-! ## Parabolas and intersections -/

section Field

variable {K : Type} [LinearOrderedField K]

theorem DT_INF_pos : (0 : K) < DT_INF := by
  unfold DT_INF; norm_num

theorem DT_INF_big : (4095 * 4095 : K) < DT_INF := by unfold DT_INF; norm_num

theorem intersect_den_pos {p q : Nat} (h : p < q) :
    (0 : K) < ((2 * (q : ℤ) - 2 * (p : ℤ) : ℤ) : K) := by
  have : (p : K) < (q : K) := Nat.cast_lt.mpr h
  push_cast
  linarith

/-- The later parabola `q` is below the earlier one `p` exactly from their
intersection on. -/
theorem parabola_le_iff (f : Nat → K) {p q : Nat} (h : p < q) (x : K) :
    parabola f q x ≤ parabola f p x ↔ intersect f q p ≤ x := by
  have hd := intersect_den_pos (K := K) h
  unfold intersect parabola
  rw [div_le_iff₀ hd]
  push_cast
  constructor <;> intro h1 <;> nlinarith [h1]

/-- The earlier parabola `p` is below the later one `q` exactly up to their
intersection. -/
theorem parabola_ge_iff (f : Nat → K) {p q : Nat} (h : p < q) (x : K) :
    parabola f p x ≤ parabola f q x ↔ x ≤ intersect f q p := by
  have hd := intersect_den_pos (K := K) h
  unfold intersect parabola
  rw [le_div_iff₀ hd]
  push_cast
  constructor <;> intro h1 <;> nlinarith [h1]

/-- Every intersection computed on costs in `[0, DT_INF]` and indices below
`DT_MAX_DIMENSION` lies strictly between the two sentinels. -/
theorem intersect_bounds (f : Nat → K) {p q : Nat} (h : p < q) (hq : q < DT_MAX_DIMENSION)
    (hp0 : 0 ≤ f p) (hp1 : f p ≤ DT_INF) (hq0 : 0 ≤ f q) (hq1 : f q ≤ DT_INF) :
    -DT_INF < intersect f q p ∧ intersect f q p < DT_INF := by
  have hd := intersect_den_pos (K := K) h
  have hpq : (p : K) + 1 ≤ (q : K) := by exact_mod_cast h
  have hq4 : (q : K) ≤ 4095 := by
    have : q ≤ 4095 := by unfold DT_MAX_DIMENSION at hq; omega
    exact_mod_cast this
  have hp : (0 : K) ≤ (p : K) := Nat.cast_nonneg p
  have hI : (0 : K) < DT_INF := DT_INF_pos
  have hqq : (q : K) * (q : K) ≤ 4095 * 4095 := by nlinarith
  have hpp : (p : K) * (p : K) ≤ (q : K) * (q : K) := by nlinarith
  have hpp0 : (0 : K) ≤ (p : K) * (p : K) := by nlinarith
  have hbig : (4095 * 4095 : K) < DT_INF := DT_INF_big
  unfold intersect
  rw [lt_div_iff₀ hd, div_lt_iff₀ hd]
  push_cast
  push_cast at hd
  generalize (DT_INF : K) = I at *
  generalize f p = a at *
  generalize f q = b at *
  generalize (p : K) = P at *
  generalize (q : K) = Q at *
  have hD : I * 2 ≤ I * (2 * Q - 2 * P) :=
    mul_le_mul_of_nonneg_left (by linarith) hI.le
  constructor
  · linarith
  · linarith
 

/-! ## The construction loop of `dt_1d` -/

theorem EnvInv.apex_le {f : Nat → K} {m : Nat} {e : Envelope K} (he : EnvInv f m e)
    {i : Nat} (hi : i ≤ e.k) : e.apex i ≤ m := by
  rcases Nat.lt_or_eq_of_le hi with h | h
  · have := he.v_mono i e.k h le_rfl
    rw [he.v_top] at this
    exact this.le
  · rw [h, he.v_top]

theorem EnvInv.boundary_le {f : Nat → K} {m : Nat} {e : Envelope K} (he : EnvInv f m e)
    {i j : Nat} (hij : i ≤ j) (hj : j ≤ e.k + 1) : e.boundary i ≤ e.boundary j := by
  rcases Nat.lt_or_eq_of_le hij with h | h
  · exact (he.z_mono i j h hj).le
  · rw [h]

theorem popLoop_zero (f : Nat → K) (q : Nat) (v : Nat → Option Nat) (z : Nat → Option K)
    (p : Nat) (b : K) (hv : v 0 = some p) (hz : z 0 = some b) :
    popLoop f q v z 0 = if intersect f q p ≤ b then none else some (0, intersect f q p) := by
  simp [popLoop, hv, hz]

theorem popLoop_succ (f : Nat → K) (q : Nat) (v : Nat → Option Nat) (z : Nat → Option K)
    (k p : Nat) (b : K) (hv : v (k + 1) = some p) (hz : z (k + 1) = some b) :
    popLoop f q v z (k + 1) =
      if intersect f q p ≤ b then popLoop f q v z k else some (k + 1, intersect f q p) := by
  simp [popLoop, hv, hz]

/-- The inner loop of the construction, run on an envelope of the candidates
`0, …, m` for the candidate `m + 1`: it stops at an index `j ≥ 0` whose boundary is
strictly left of the intersection, and the candidate is below every earlier
parabola to the right of the boundaries it has popped. -/
theorem popLoop_spec (f : Nat → K) (n m : Nat) (e : Envelope K)
    (hn : n ≤ DT_MAX_DIMENSION) (hm : m + 1 < n)
    (hf : ∀ p, p < n → 0 ≤ f p ∧ f p ≤ DT_INF) (he : EnvInv f m e) :
    ∀ k, k ≤ e.k →
      (k < e.k → ∀ x : K, e.boundary (k + 1) ≤ x → ∀ p, p ≤ m →
        parabola f (m + 1) x ≤ parabola f p x) →
      ∃ j, j ≤ k ∧ popLoop f (m + 1) e.v e.z k = some (j, intersect f (m + 1) (e.apex j)) ∧
        e.boundary j < intersect f (m + 1) (e.apex j) ∧
        (j < e.k → ∀ x : K, e.boundary (j + 1) ≤ x → ∀ p, p ≤ m →
          parabola f (m + 1) x ≤ parabola f p x) := by
  intro k
  induction k with
  | zero =>
    intro _ hR
    refine ⟨0, le_rfl, ?_, ?_, hR⟩
    · rw [popLoop_zero f (m + 1) e.v e.z _ _ (he.v_some 0 (Nat.zero_le _))
        (he.z_some 0 (Nat.zero_le _)), he.z_zero, he.v_zero]
      have hb := (intersect_bounds f (Nat.succ_pos m) (lt_of_lt_of_le hm hn)
        (hf 0 (by omega)).1 (hf 0 (by omega)).2 (hf (m + 1) hm).1 (hf (m + 1) hm).2).1
      rw [if_neg (not_le.mpr hb)]
    · rw [he.z_zero, he.v_zero]
      exact (intersect_bounds f (Nat.succ_pos m) (lt_of_lt_of_le hm hn)
        (hf 0 (by omega)).1 (hf 0 (by omega)).2 (hf (m + 1) hm).1 (hf (m + 1) hm).2).1
  | succ k ih =>
    intro hk hR
    rw [popLoop_succ f (m + 1) e.v e.z k _ _ (he.v_some (k + 1) hk)
      (he.z_some (k + 1) (by omega))]
    have hlt : e.apex (k + 1) < m + 1 := Nat.lt_succ_of_le (he.apex_le hk)
    by_cases hs : intersect f (m + 1) (e.apex (k + 1)) ≤ e.boundary (k + 1)
    · rw [if_pos hs]
      have hR2 : k < e.k → ∀ x : K, e.boundary (k + 1) ≤ x → ∀ p, p ≤ m →
          parabola f (m + 1) x ≤ parabola f p x := by
        intro _ x hx p hp
        have h1 : parabola f (m + 1) x ≤ parabola f (e.apex (k + 1)) x :=
          (parabola_le_iff f hlt x).mpr (le_trans hs hx)
        by_cases hx2 : k + 1 = e.k ∨ x ≤ e.boundary (k + 1 + 1)
        · exact le_trans h1 (he.lower (k + 1) hk x (Or.inr hx) hx2 p hp)
        · push_neg at hx2
          exact hR (lt_of_le_of_ne hk hx2.1) x hx2.2.le p hp
      obtain ⟨j, hj, hpop, hb, hRj⟩ := ih (by omega) hR2
      exact ⟨j, by omega, hpop, hb, hRj⟩
    · rw [if_neg hs]
      exact ⟨k + 1, le_rfl, rfl, not_le.mp hs, hR⟩

theorem Envelope.push_k (e : Envelope K) (j q : Nat) (s : K) : (e.push j q s).k = j + 1 := rfl

theorem Envelope.push_apex (e : Envelope K) (j q : Nat) (s : K) (i : Nat) :
    (e.push j q s).apex i = if i = j + 1 then q else e.apex i := by
  unfold Envelope.apex Envelope.push
  by_cases h : i = j + 1
  · subst h; simp
  · simp [h, Function.update_noteq h]

theorem Envelope.push_boundary (e : Envelope K) (j q : Nat) (s : K) (i : Nat) :
    (e.push j q s).boundary i =
      if i = j + 1 + 1 then DT_INF else if i = j + 1 then s else e.boundary i := by
  unfold Envelope.boundary Envelope.push
  by_cases h : i = j + 1 + 1
  · subst h; simp
  · by_cases h2 : i = j + 1
    · subst h2; simp
    · simp [h, h2, Function.update_noteq h, Function.update_noteq h2]

theorem pushCandidate_eq (f : Nat → K) (q : Nat) (e : Envelope K) (j : Nat) (s : K)
    (hpop : popLoop f q e.v e.z e.k = some (j, s)) (hj : j + 1 < DT_MAX_DIMENSION) :
    pushCandidate f q e = some (e.push j q s) := by
  have h2 : j + 1 < DT_MAX_DIMENSION + 1 := by omega
  have h3 : j < DT_MAX_DIMENSION := by omega
  simp [pushCandidate, hpop, store, hj, h2, h3, Envelope.push]

/-- One iteration of the construction loop keeps the envelope invariant. -/
theorem EnvInv.push {f : Nat → K} {n m : Nat} {e : Envelope K}
    (hn : n ≤ DT_MAX_DIMENSION) (hm : m + 1 < n)
    (hf : ∀ p, p < n → 0 ≤ f p ∧ f p ≤ DT_INF) (he : EnvInv f m e)
    (j : Nat) (hj : j ≤ e.k) (hb : e.boundary j < intersect f (m + 1) (e.apex j))
    (hR : j < e.k → ∀ x : K, e.boundary (j + 1) ≤ x → ∀ p, p ≤ m →
      parabola f (m + 1) x ≤ parabola f p x) :
    EnvInv f (m + 1) (e.push j (m + 1) (intersect f (m + 1) (e.apex j))) := by
  have hk := he.k_le
  have haj : e.apex j < m + 1 := Nat.lt_succ_of_le (he.apex_le hj)
  have hsI : intersect f (m + 1) (e.apex j) < DT_INF :=
    (intersect_bounds f haj (lt_of_lt_of_le hm hn) (hf _ (by omega)).1 (hf _ (by omega)).2
      (hf (m + 1) hm).1 (hf (m + 1) hm).2).2
  refine ⟨?_, ?_, ?_, ?_, ?_, ?_, ?_, ?_, ?_, ?_⟩
  · rw [Envelope.push_k]; omega
  · intro i hi
    rw [Envelope.push_k] at hi
    rw [Envelope.push_apex]
    by_cases h : i = j + 1
    · subst h; simp [Envelope.push]
    · rw [if_neg h]
      show Function.update e.v (j + 1) (some (m + 1)) i = _
      rw [Function.update_noteq h]
      exact he.v_some i (by omega)
  · intro i hi
    rw [Envelope.push_k] at hi
    rw [Envelope.push_boundary]
    show Function.update (Function.update e.z (j + 1) (some _)) (j + 1 + 1) (some DT_INF) i = _
    by_cases h : i = j + 1 + 1
    · subst h; simp
    · rw [if_neg h, Function.update_noteq h]
      by_cases h2 : i = j + 1
      · subst h2; simp
      · rw [if_neg h2, Function.update_noteq h2]
        exact he.z_some i (by omega)
  · rw [Envelope.push_apex, if_neg (by omega)]; exact he.v_zero
  · rw [Envelope.push_k, Envelope.push_apex, if_pos rfl]
  · intro a b hab hb2
    rw [Envelope.push_k] at hb2
    rw [Envelope.push_apex, Envelope.push_apex, if_neg (by omega)]
    by_cases h : b = j + 1
    · rw [if_pos h]
      exact Nat.lt_succ_of_le (he.apex_le (by omega))
    · rw [if_neg h]
      exact he.v_mono a b hab (by omega)
  · rw [Envelope.push_boundary, if_neg (by omega), if_neg (by omega)]; exact he.z_zero
  · rw [Envelope.push_k, Envelope.push_boundary, if_pos rfl]
  · intro a b hab hb2
    rw [Envelope.push_k] at hb2
    rw [Envelope.push_boundary, Envelope.push_boundary, if_neg (show ¬ a = j + 1 + 1 by omega)]
    by_cases h : b = j + 1 + 1
    · rw [if_pos h]
      by_cases h2 : a = j + 1
      · rw [if_pos h2]; exact hsI
      · rw [if_neg h2]
        exact lt_of_le_of_lt (he.boundary_le (show a ≤ j by omega) (by omega)) (lt_trans hb hsI)
    · rw [if_neg h, if_neg (show ¬ a = j + 1 by omega)]
      by_cases h2 : b = j + 1
      · rw [if_pos h2]
        exact lt_of_le_of_lt (he.boundary_le (show a ≤ j by omega) (by omega)) hb
      · rw [if_neg h2]
        exact he.z_mono a b hab (by omega)
  · intro i hi x hl hr p hp
    rw [Envelope.push_k] at hi hr
    rw [Envelope.push_apex]
    rw [Envelope.push_boundary, if_neg (show ¬ i = j + 1 + 1 by omega)] at hl
    -- every earlier parabola is above the one at `j` or above the candidate at `x`
    have hold : ∀ x : K, (j = 0 ∨ e.boundary j ≤ x) → ∀ p, p ≤ m →
        parabola f (e.apex j) x ≤ parabola f p x ∨ parabola f (m + 1) x ≤ parabola f p x := by
      intro x hx p hp
      by_cases hx2 : j = e.k ∨ x ≤ e.boundary (j + 1)
      · exact Or.inl (he.lower j hj x hx hx2 p hp)
      · push_neg at hx2
        exact Or.inr (hR (lt_of_le_of_ne hj hx2.1) x hx2.2.le p hp)
    by_cases h : i = j + 1
    · -- the new rightmost parabola, on `[s, ∞)`
      rw [if_pos h]
      rw [if_pos h] at hl
      have hsx : intersect f (m + 1) (e.apex j) ≤ x := by
        rcases hl with hl | hl
        · omega
        · exact hl
      have h1 : parabola f (m + 1) x ≤ parabola f (e.apex j) x := (parabola_le_iff f haj x).mpr hsx
      rcases Nat.lt_or_eq_of_le hp with hp2 | hp2
      · rcases hold x (Or.inr (le_trans hb.le hsx)) p (by omega) with h2 | h2
        · exact le_trans h1 h2
        · exact h2
      · rw [hp2]
    · rw [if_neg h]
      rw [if_neg h] at hl
      have hr2 : x ≤ (e.push j (m + 1) (intersect f (m + 1) (e.apex j))).boundary (i + 1) := by
        rcases hr with hr | hr
        · omega
        · exact hr
      rw [Envelope.push_boundary, if_neg (show ¬ i + 1 = j + 1 + 1 by omega)] at hr2
      by_cases h3 : i = j
      · -- the parabola the inner loop stopped at, on `[z[j], s]`
        subst h3
        rw [if_pos rfl] at hr2
        have h1 : parabola f (e.apex i) x ≤ parabola f (m + 1) x :=
          (parabola_ge_iff f haj x).mpr hr2
        rcases Nat.lt_or_eq_of_le hp with hp2 | hp2
        · rcases hold x hl p (by omega) with h2 | h2
          · exact h2
          · exact le_trans h1 h2
        · rw [hp2]; exact h1
      · -- the parabolas further left, untouched
        rw [if_neg (show ¬ i + 1 = j + 1 by omega)] at hr2
        have hij : i + 1 ≤ j := by omega
        rcases Nat.lt_or_eq_of_le hp with hp2 | hp2
        · exact he.lower i (by omega) x hl (Or.inr hr2) p (by omega)
        · rw [hp2]
          have h1 : parabola f (e.apex i) x ≤ parabola f (e.apex j) x :=
            he.lower i (by omega) x hl (Or.inr hr2) _ (he.apex_le hj)
          have hxs : x ≤ intersect f (m + 1) (e.apex j) :=
            le_trans hr2 (le_trans (he.boundary_le hij (by omega)) hb.le)
          exact le_trans h1 ((parabola_ge_iff f haj x).mpr hxs)

/-- One iteration of the construction loop succeeds and keeps the invariant. -/
theorem pushCandidate_spec (f : Nat → K) (n m : Nat) (e : Envelope K)
    (hn : n ≤ DT_MAX_DIMENSION) (hm : m + 1 < n)
    (hf : ∀ p, p < n → 0 ≤ f p ∧ f p ≤ DT_INF) (he : EnvInv f m e) :
    ∃ e2, pushCandidate f (m + 1) e = some e2 ∧ EnvInv f (m + 1) e2 := by
  obtain ⟨j, hj, hpop, hb, hR⟩ := popLoop_spec f n m e hn hm hf he e.k le_rfl
    (fun h => absurd h (lt_irrefl _))
  have hk := he.k_le
  exact ⟨_, pushCandidate_eq f (m + 1) e j _ hpop (by omega), he.push hn hm hf j hj hb hR⟩

theorem EnvInv.init (f : Nat → K) : EnvInv f 0 (Envelope.init : Envelope K) := by
  have hI : (0 : K) < DT_INF := DT_INF_pos
  refine ⟨le_rfl, ?_, ?_, ?_, ?_, ?_, ?_, ?_, ?_, ?_⟩
  · intro i hi
    have : i = 0 := by simpa [Envelope.init] using hi
    subst this; simp [Envelope.init, Envelope.apex]
  · intro i hi
    have : i = 0 ∨ i = 1 := by simp [Envelope.init] at hi; omega
    rcases this with h | h <;> subst h <;> simp [Envelope.init, Envelope.boundary]
  · simp [Envelope.init, Envelope.apex]
  · simp [Envelope.init, Envelope.apex]
  · intro a b hab hb
    simp [Envelope.init] at hb
    omega
  · simp [Envelope.init, Envelope.boundary]
  · simp [Envelope.init, Envelope.boundary]
  · intro a b hab hb
    have : a = 0 ∧ b = 1 := by simp [Envelope.init] at hb; omega
    obtain ⟨ha, hb⟩ := this
    subst ha; subst hb
    simp [Envelope.init, Envelope.boundary]
    linarith
  · intro i hi x _ _ p hp
    have h1 : i = 0 := by simpa [Envelope.init] using hi
    have h2 : p = 0 := by omega
    subst h1; subst h2
    simp [Envelope.init, Envelope.apex]

/-- The construction loop of `dt_1d` runs to its end and leaves a lower envelope of
all the candidates. -/
theorem lowerEnvelope_spec (f : Nat → K) (n : Nat) (hn : n ≤ DT_MAX_DIMENSION)
    (hf : ∀ p, p < n → 0 ≤ f p ∧ f p ≤ DT_INF) (m : Nat) (hm : m < n) :
    ∃ e, lowerEnvelope f m = some e ∧ EnvInv f m e := by
  unfold lowerEnvelope
  exact forRange_inv (fun i e => EnvInv f i e) m _ _ (EnvInv.init f)
    (fun i hi e he => pushCandidate_spec f n i e hn (by omega) hf he)

/-! ## The evaluation loop of `dt_1d` -/

theorem advance_succ (z : Nat → Option K) (q : K) (fuel k : Nat) (b : K)
    (hz : z (k + 1) = some b) :
    advance z q (fuel + 1) k = if b < q then advance z q fuel (k + 1) else some k := by
  simp [advance, hz]

/-- The cursor loop of the evaluation stops at an index whose interval contains
`q`, at or before the rightmost parabola. -/
theorem advance_spec {f : Nat → K} {m : Nat} {e : Envelope K} (he : EnvInv f m e)
    (hm : m < DT_MAX_DIMENSION) (q : K) (hq : q ≤ DT_INF) :
    ∀ g c, c + g = e.k → (c = 0 ∨ e.boundary c < q) →
      ∃ c2, advance e.z q (DT_MAX_DIMENSION - c) c = some c2 ∧ c ≤ c2 ∧ c2 ≤ e.k ∧
        (c2 = 0 ∨ e.boundary c2 < q) ∧ q ≤ e.boundary (c2 + 1) := by
  have hk := he.k_le
  intro g
  induction g with
  | zero =>
    intro c hc hl
    have hc2 : c = e.k := by omega
    have hfuel : DT_MAX_DIMENSION - c = (DT_MAX_DIMENSION - (c + 1)) + 1 := by omega
    rw [hfuel, advance_succ e.z q _ c _ (he.z_some (c + 1) (by omega))]
    have hb : e.boundary (c + 1) = DT_INF := by rw [hc2]; exact he.z_top
    rw [if_neg (by rw [hb]; exact not_lt.mpr hq)]
    exact ⟨c, rfl, le_rfl, by omega, hl, by rw [hb]; exact hq⟩
  | succ g ih =>
    intro c hc hl
    have hfuel : DT_MAX_DIMENSION - c = (DT_MAX_DIMENSION - (c + 1)) + 1 := by omega
    rw [hfuel, advance_succ e.z q _ c _ (he.z_some (c + 1) (by omega))]
    by_cases hb : e.boundary (c + 1) < q
    · rw [if_pos hb]
      obtain ⟨c2, h1, h2, h3, h4, h5⟩ := ih (c + 1) (by omega) (Or.inr hb)
      exact ⟨c2, h1, by omega, h3, h4, h5⟩
    · rw [if_neg hb]
      exact ⟨c, rfl, le_rfl, by omega, hl, not_lt.mp hb⟩

theorem fillStep_eq (f : Nat → K) (e : Envelope K) (q c c2 p : Nat) (d : Nat → K)
    (hadv : advance e.z (q : K) (DT_MAX_DIMENSION - c) c = some c2) (hv : e.v c2 = some p) :
    fillStep f e q (c, d) = some (c2, Function.update d q (parabola f p (q : K))) := by
  have h : ((q : K) - (p : K)) * ((q : K) - (p : K)) + f p = parabola f p (q : K) := by
    unfold parabola; ring
  simp [fillStep, hadv, hv, h]

/-- The evaluation loop of `dt_1d`, run on a lower envelope of all `n` parabolas,
writes the minimum at every `q < n` and nothing else. -/
theorem fill_spec {f : Nat → K} {n : Nat} {e : Envelope K} (hn0 : 1 ≤ n)
    (hn : n ≤ DT_MAX_DIMENSION) (he : EnvInv f (n - 1) e) (dst : Nat → K) :
    ∃ r, forRange n (fillStep f e) (0, dst) = some r ∧
      (∀ q, q < n → IsMinAt f n q (r.2 q)) ∧ ∀ q, n ≤ q → r.2 q = dst q := by
  have hI : (4095 * 4095 : K) < DT_INF := DT_INF_big
  obtain ⟨r, hr, -, -, h3, h4⟩ := forRange_inv
    (fun j (st : Nat × (Nat → K)) => st.1 ≤ e.k ∧ (st.1 = 0 ∨ e.boundary st.1 < (j : K)) ∧
      (∀ q, q < j → IsMinAt f n q (st.2 q)) ∧ ∀ q, j ≤ q → st.2 q = dst q)
    n (fillStep f e) (0, dst)
    ⟨Nat.zero_le _, Or.inl rfl, fun q hq => absurd hq (Nat.not_lt_zero q), fun _ _ => rfl⟩
    (by
      rintro j hj ⟨c, d⟩ ⟨h1, h2, h3, h4⟩
      have hjI : (j : K) ≤ DT_INF := by
        have h5 : (j : K) ≤ 4095 := by
          have : j ≤ 4095 := by unfold DT_MAX_DIMENSION at hn; omega
          exact_mod_cast this
        linarith
      obtain ⟨c2, hadv, hc1, hc2, hc3, hc4⟩ :=
        advance_spec he (by omega) (j : K) hjI (e.k - c) c (by simp at h1; omega) h2
      refine ⟨_, fillStep_eq f e j c c2 _ d hadv (he.v_some c2 hc2), hc2, ?_, ?_, ?_⟩
      · rcases hc3 with h | h
        · exact Or.inl h
        · refine Or.inr (lt_trans h ?_)
          push_cast; linarith
      · intro q hq
        by_cases hqj : q = j
        · subst hqj
          simp only [Function.update_same]
          refine ⟨⟨e.apex c2, ?_, rfl⟩, ?_⟩
          · have := he.apex_le hc2
            omega
          · intro p hp
            exact he.lower c2 hc2 (q : K) (hc3.imp id le_of_lt) (Or.inr hc4) p (by omega)
        · simp only [Function.update_noteq hqj]
          exact h3 q (by omega)
      · intro q hq
        have hqj : q ≠ j := by omega
        simp only [Function.update_noteq hqj]
        exact h4 q (by omega))
  exact ⟨r, hr, h3, h4⟩

/-- Exact `dt_1d`: on a line of `n ∈ [1, DT_MAX_DIMENSION]` costs in `[0, DT_INF]`
the function returns, with the minimum at every `q < n` and the rest of `dst`
untouched. -/
theorem dt_1d_spec (f dst : Nat → K) (n : Nat) (hn0 : 1 ≤ n) (hn : n ≤ DT_MAX_DIMENSION)
    (hf : ∀ p, p < n → 0 ≤ f p ∧ f p ≤ DT_INF) :
    ∃ d, dt_1d dst f (n : ℤ) = some d ∧ (∀ q, q < n → IsMinAt f n q (d q)) ∧
      ∀ q, n ≤ q → d q = dst q := by
  obtain ⟨e, he1, he2⟩ := lowerEnvelope_spec f n hn hf (n - 1) (by omega)
  obtain ⟨r, hr1, hr2, hr3⟩ := fill_spec hn0 hn he2 dst
  refine ⟨r.2, ?_, hr2, hr3⟩
  have h1 : ((n : ℤ) - 1).toNat = n - 1 := by omega
  have h2 : (n : ℤ).toNat = n := by simp
  simp [dt_1d, h1, h2, he1, hr1]

/-! ## The two passes of `dt_2d` -/

theorem IsMinAt.congr {f g : Nat → K} {n q : Nat} {y : K} (h : IsMinAt f n q y)
    (hfg : ∀ p, p < n → f p = g p) : IsMinAt g n q y := by
  obtain ⟨⟨p, hp, hy⟩, hle⟩ := h
  refine ⟨⟨p, hp, ?_⟩, ?_⟩
  · rw [hy]; unfold parabola; rw [hfg p hp]
  · intro p2 hp2
    have := hle p2 hp2
    unfold parabola at this ⊢
    rw [← hfg p2 hp2]; exact this

theorem IsMinAt.bounds {f : Nat → K} {n q : Nat} {y : K} (h : IsMinAt f n q y) (hq : q < n)
    (hf : ∀ p, p < n → 0 ≤ f p ∧ f p ≤ DT_INF) : 0 ≤ y ∧ y ≤ DT_INF := by
  obtain ⟨⟨p, hp, hy⟩, hle⟩ := h
  constructor
  · rw [hy]; unfold parabola
    have := (hf p hp).1
    positivity
  · have := hle q hq
    unfold parabola at this
    have h2 := (hf q hq).2
    simp at this
    linarith

/-- One line of a pass of `dt_2d`: the cells of the line receive the minima of the
line read from the source, every other cell of `dst` is untouched. -/
theorem lineStep_spec (srcOf : (Nat → K) → (Nat → K)) (idx : Nat → Nat) (n : Nat) (st : Work K)
    (hn0 : 1 ≤ n) (hn : n ≤ DT_MAX_DIMENSION)
    (hinj : ∀ i j, i < n → j < n → idx i = idx j → i = j)
    (hsrc : ∀ i, i < n → 0 ≤ srcOf st.dst (idx i) ∧ srcOf st.dst (idx i) ≤ DT_INF) :
    ∃ st2, lineStep srcOf idx n st = some st2 ∧
      (∀ q, q < n → IsMinAt (fun p => srcOf st.dst (idx p)) n q (st2.dst (idx q))) ∧
      ∀ a, (∀ i, i < n → a ≠ idx i) → st2.dst a = st.dst a := by
  obtain ⟨g, hg1, hg2⟩ := gather_spec (srcOf st.dst) idx n st.f hn
  obtain ⟨t, ht1, ht2, -⟩ := dt_1d_spec g st.tmp n hn0 hn (fun p hp => by rw [hg2 p hp]; exact hsrc p hp)
  obtain ⟨d, hd1, hd2, hd3⟩ := scatter_spec t idx n st.dst hn hinj
  refine ⟨⟨d, g, t⟩, by simp [lineStep, hg1, ht1, hd1], ?_, hd3⟩
  intro q hq
  show IsMinAt _ n q (d (idx q))
  rw [hd2 q hq]
  exact (ht2 q hq).congr hg2

/-- A whole pass of `dt_2d` over `L` lines of `n` cells, the cell `i` of line `l`
being at `idx l i`: every line is replaced by its minima. `F` is the grid the pass
reads and `dst0` the memory behind `dst` before the pass. -/
theorem pass_spec (srcOf : (Nat → K) → (Nat → K)) (F dst0 : Nat → K) (idx : Nat → Nat → Nat)
    (L n : Nat) (hn0 : 1 ≤ n) (hn : n ≤ DT_MAX_DIMENSION)
    (hinj : ∀ l i l2 i2, l < L → l2 < L → i < n → i2 < n → idx l i = idx l2 i2 →
      l = l2 ∧ i = i2)
    (hview : ∀ d a, d a = dst0 a → srcOf d a = F a)
    (hF : ∀ l i, l < L → i < n → 0 ≤ F (idx l i) ∧ F (idx l i) ≤ DT_INF)
    (st0 : Work K) (h0 : st0.dst = dst0) :
    ∃ st, forRange L (fun l st => lineStep srcOf (idx l) n st) st0 = some st ∧
      ∀ l i, l < L → i < n → IsMinAt (fun p => F (idx l p)) n i (st.dst (idx l i)) := by
  obtain ⟨st, hst, h1, -⟩ := forRange_inv
    (fun j (st : Work K) =>
      (∀ l i, l < j → i < n → IsMinAt (fun p => F (idx l p)) n i (st.dst (idx l i))) ∧
      ∀ l i, j ≤ l → l < L → i < n → st.dst (idx l i) = dst0 (idx l i))
    L (fun l st => lineStep srcOf (idx l) n st) st0
    ⟨fun l i hl => absurd hl (Nat.not_lt_zero l), fun l i _ _ _ => by rw [h0]⟩
    (fun j hj st hst => by
      have hs : ∀ i, i < n → srcOf st.dst (idx j i) = F (idx j i) :=
        fun i hi => hview st.dst _ (hst.2 j i le_rfl hj hi)
      obtain ⟨st2, h2, h3, h4⟩ := lineStep_spec srcOf (idx j) n st hn0 hn
        (fun i i2 hi hi2 h => (hinj j i j i2 hj hj hi hi2 h).2)
        (fun i hi => by rw [hs i hi]; exact hF j i hj hi)
      refine ⟨st2, h2, ?_, ?_⟩
      · intro l i hl hi
        by_cases hlj : l = j
        · subst hlj
          exact (h3 i hi).congr hs
        · rw [h4 (idx l i) (fun i2 hi2 hc => hlj (hinj l i j i2 (by omega) hj hi hi2 hc).1)]
          exact hst.1 l i (by omega) hi
      · intro l i hl hlL hi
        rw [h4 (idx l i) (fun i2 hi2 hc => by have := (hinj l i j i2 hlL hj hi hi2 hc).1; omega)]
        exact hst.2 l i (by omega) hlL hi)
  exact ⟨st, hst, h1⟩

/-- Exact `dt_2d`, for any view `srcOf` of the source that shows the grid `F` on
the cells `dst` has not been written to yet. -/
theorem dt_2d_core_spec (srcOf : (Nat → K) → (Nat → K)) (F dst0 : Nat → K) (width height : Nat)
    (hw0 : 1 ≤ width) (hw : width ≤ DT_MAX_DIMENSION)
    (hh0 : 1 ≤ height) (hh : height ≤ DT_MAX_DIMENSION)
    (hview : ∀ d a, d a = dst0 a → srcOf d a = F a)
    (hF : ∀ x y, x < width → y < height →
      0 ≤ F (y * width + x) ∧ F (y * width + x) ≤ DT_INF) :
    ∃ d, dt_2d_core srcOf dst0 width height = some d ∧
      ∀ x y, x < width → y < height → IsMin2D F width height x y (d (y * width + x)) := by
  obtain ⟨st1, hst1, hrow⟩ := pass_spec srcOf F dst0 (fun y x => y * width + x) height width
    hw0 hw (fun l i l2 i2 _ _ hi hi2 h => cell_inj hi hi2 h) hview
    (fun l i hl hi => hF i l hi hl) ⟨dst0, fun _ => 0, fun _ => 0⟩ rfl
  have hR : ∀ x y, x < width → y < height →
      0 ≤ st1.dst (y * width + x) ∧ st1.dst (y * width + x) ≤ DT_INF :=
    fun x y hx hy => (hrow y x hy hx).bounds hx (fun p hp => hF p y hp hy)
  obtain ⟨st2, hst2, hcol⟩ := pass_spec id st1.dst st1.dst (fun x y => y * width + x) width height
    hh0 hh (fun l i l2 i2 hl hl2 _ _ h => (cell_inj hl hl2 h).symm) (fun d a h => h)
    (fun l i hl hi => hR l i hl hi) st1 rfl
  refine ⟨st2.dst, by simp [dt_2d_core, hst1, hst2], ?_⟩
  intro x y hx hy
  obtain ⟨⟨py, hpy, h1⟩, h2⟩ := hcol x y hx hy
  obtain ⟨⟨px, hpx, h3⟩, -⟩ := hrow py x hpy hx
  refine ⟨⟨px, py, hpx, hpy, ?_⟩, ?_⟩
  · show st2.dst (y * width + x) = _
    rw [h1]; unfold parabola
    show _ + st1.dst (py * width + x) = _
    rw [h3]; unfold parabola; ring
  · intro qx qy hqx hqy
    have h4 := h2 qy hqy
    have h5 := (hrow qy x hqy hx).2 qx hqx
    unfold parabola at h4 h5
    have h6 : st2.dst (y * width + x) ≤ ((y : K) - (qy : K)) ^ 2 + st1.dst (qy * width + x) := h4
    have h7 : st1.dst (qy * width + x) ≤ ((x : K) - (qx : K)) ^ 2 + F (qy * width + qx) := h5
    linarith

end Field

/-! ## The pixel loops of `main` -/

theorem C_eq_one_iff (bits : Nat → Nat) (w h pitch : Nat) (x y : ℤ) :
    C bits w h pitch x y = 1 ↔ Foreground bits w h pitch x y := by
  unfold C Foreground
  by_cases hin : x ≥ 0 ∧ x < (w : ℤ) ∧ y ≥ 0 ∧ y < (h : ℤ)
  · rw [if_pos hin]
    by_cases hb : bits (y * (pitch : ℤ) + x).toNat > 128
    · rw [if_pos hb]
      simp only [true_iff]
      exact ⟨hin.1, hin.2.1, hin.2.2.1, hin.2.2.2, hb⟩
    · rw [if_neg hb]
      constructor
      · intro h0; exact absurd h0 (by decide)
      · intro h0; exact absurd h0.2.2.2.2 hb
  · rw [if_neg hin]
    constructor
    · intro h0; exact absurd h0 (by decide)
    · intro h0; exact absurd ⟨h0.1, h0.2.1, h0.2.2.1, h0.2.2.2.1⟩ hin

theorem C_eq_zero_or_one (bits : Nat → Nat) (w h pitch : Nat) (x y : ℤ) :
    C bits w h pitch x y = 0 ∨ C bits w h pitch x y = 1 := by
  unfold C
  split_ifs <;> simp

theorem C_ne_one_iff (bits : Nat → Nat) (w h pitch : Nat) (x y : ℤ) :
    C bits w h pitch x y ≠ 1 ↔ ¬ Foreground bits w h pitch x y :=
  not_congr (C_eq_one_iff bits w h pitch x y)

/-- On the grid `C(x, y)` is the threshold test of the pixel's intensity. -/
theorem C_on_grid (bits : Nat → Nat) (w h pitch : Nat) {x y : Nat} (hx : x < w) (hy : y < h) :
    C bits w h pitch x y = if 128 < bits (y * pitch + x) then 1 else 0 := by
  unfold C
  have hin : (x : ℤ) ≥ 0 ∧ (x : ℤ) < (w : ℤ) ∧ (y : ℤ) ≥ 0 ∧ (y : ℤ) < (h : ℤ) := by
    refine ⟨by omega, by omega, by omega, by omega⟩
  have hidx : ((y : ℤ) * (pitch : ℤ) + (x : ℤ)).toNat = y * pitch + x := by
    have : ((y : ℤ) * (pitch : ℤ) + (x : ℤ)) = ((y * pitch + x : ℕ) : ℤ) := by push_cast; ring
    rw [this, Int.toNat_natCast]
  rw [if_pos hin, hidx]

section Pixels

variable {K : Type} [LinearOrderedField K]

/-- The boundary extraction loop of `main`: every pixel of the image receives `0`
when the test of the loop holds and `DT_INF` otherwise. -/
theorem extract_spec (bits : Nat → Nat) (w h pitch : Nat) (t0 : Nat → K) :
    ∃ t, forPixels w h (fun x y t => some (extractPixel bits w h pitch x y t)) t0 = some t ∧
      ∀ x y, x < w → y < h →
        t (y * w + x) = if boundaryTest bits w h pitch x y then 0 else DT_INF := by
  obtain ⟨t, ht, h1, -⟩ := forPixels_spec w h w le_rfl
    (fun x y t => some (extractPixel bits w h pitch x y t))
    (fun x y _ => if boundaryTest bits w h pitch x y then (0 : K) else DT_INF)
    (fun x y t _ _ => by
      refine ⟨_, rfl, ?_, ?_⟩
      · unfold extractPixel
        by_cases hb : boundaryTest bits w h pitch x y = true
        · simp [hb]
        · simp [hb]
      · intro a ha
        unfold extractPixel
        by_cases hb : boundaryTest bits w h pitch x y = true
        · simp [hb, Function.update_noteq ha]
        · simp [hb, Function.update_noteq ha]) t0
  exact ⟨t, ht, h1⟩

/-- The distance fixup loop of `main`: every pixel of the image receives
`-sqrt(d) - 0.5` when `C(x, y)` holds and `sqrt(d)` otherwise, `d` being its old
content. -/
theorem fixup_spec (sqrt : K → K) (bits : Nat → Nat) (w h pitch : Nat) (t0 : Nat → K) :
    ∃ t, forPixels w h (fun x y t => some (fixupPixel sqrt bits w h pitch x y t)) t0 = some t ∧
      ∀ x y, x < w → y < h → t (y * w + x) =
        if C bits w h pitch x y ≠ 0 then -sqrt (t0 (y * w + x)) - 1 / 2
        else sqrt (t0 (y * w + x)) := by
  obtain ⟨t, ht, h1, -⟩ := forPixels_spec w h w le_rfl
    (fun x y t => some (fixupPixel sqrt bits w h pitch x y t))
    (fun x y d => if C bits w h pitch x y ≠ 0 then -sqrt d - 1 / 2 else sqrt d)
    (fun x y t _ _ => by
      refine ⟨_, rfl, ?_, ?_⟩
      · simp [fixupPixel]
      · intro a ha
        simp [fixupPixel, Function.update_noteq ha]) t0
  exact ⟨t, ht, h1⟩

variable [FloorRing K]

/-- The convert-and-clamp loop of `main`, when the conversion of every pixel is
defined and a row of the image fits in the stride: every pixel of `bits` receives
its quantised value. -/
theorem quantizeLoop_spec (temp : Nat → K) (w h pitch : Nat) (hp : w ≤ pitch) (q : Nat → Nat → ℤ)
    (hq : ∀ x y, x < w → y < h → quantize (temp (y * w + x)) = some (q x y)) (b0 : Nat → Nat) :
    ∃ b, forPixels w h (fun x y b => quantizePixel temp w pitch x y b) b0 = some b ∧
      ∀ x y, x < w → y < h → b (y * pitch + x) = (q x y).toNat := by
  obtain ⟨b, hb, h1, -⟩ := forPixels_spec w h pitch hp
    (fun x y b => quantizePixel temp w pitch x y b) (fun x y _ => (q x y).toNat)
    (fun x y b hx hy => by
      refine ⟨Function.update b (y * pitch + x) (q x y).toNat, ?_, ?_, ?_⟩
      · simp [quantizePixel, hq x y hx hy]
      · simp
      · intro a ha
        simp [Function.update_noteq ha]) b0
  exact ⟨b, hb, h1⟩

/-- The conversion `(int)x` is the floor on non-negative values in the range of
`int`. -/
theorem toInt_of_nonneg (x : K) (h0 : 0 ≤ x) (h1 : x < 2147483648) : toInt x = some ⌊x⌋ := by
  have hlo : (0 : ℤ) ≤ ⌊x⌋ := Int.floor_nonneg.mpr h0
  have hhi : ⌊x⌋ < 2147483648 := by
    rw [Int.floor_lt]; exact_mod_cast h1
  unfold toInt
  simp only [if_pos h0]
  rw [if_pos]
  unfold INT_MIN INT_MAX
  omega

/-- The conversion `(int)x` is undefined from `2³¹` on. -/
theorem toInt_overflow {K : Type} [LinearOrderedField K] [FloorRing K] (x : K)
    (h : 2147483648 ≤ x) : toInt x = none := by
  have h0 : (0 : K) ≤ x := le_trans (by norm_num) h
  have hfl : (2147483648 : ℤ) ≤ ⌊x⌋ := by
    rw [Int.le_floor]; exact_mod_cast h
  unfold toInt
  simp only [if_pos h0]
  rw [if_neg]
  unfold INT_MAX
  omega

/-- The quantised value of a signed distance strictly between `-31.875` and
`31.875` is the floor of `127.5 + 4 d`, a value between `0` and `254`. -/
theorem quantize_mid (d : K) (h0 : -31.875 < d) (h1 : d < 31.875) :
    quantize d = some ⌊127.5 + d * 4⌋ ∧ 0 ≤ ⌊127.5 + d * 4⌋ ∧ ⌊127.5 + d * 4⌋ ≤ 254 := by
  have hx0 : (0 : K) ≤ 127.5 + d * 4 := by norm_num at h0 ⊢; linarith
  have hx1 : 127.5 + d * 4 < (255 : K) := by norm_num at h1 ⊢; linarith
  have hlo : (0 : ℤ) ≤ ⌊127.5 + d * 4⌋ := Int.floor_nonneg.mpr hx0
  have hhi : ⌊127.5 + d * 4⌋ < 255 := by
    rw [Int.floor_lt]; exact_mod_cast hx1
  refine ⟨?_, hlo, by omega⟩
  unfold quantize
  rw [toInt_of_nonneg _ hx0 (by linarith)]
  simp only [Option.bind_eq_bind, Option.some_bind]
  rw [if_neg (by omega), if_neg (by omega)]

theorem quantize_overflow {K : Type} [LinearOrderedField K] [FloorRing K] (d : K)
    (h : 536870912 ≤ d) : quantize d = none := by
  unfold quantize
  rw [toInt_overflow _ (by norm_num; linarith)]
  rfl

/-- Between the saturation thresholds and the range of `int` the clamps saturate:
`255` from `31.875` up, `0` from `-31.875` down. -/
theorem quantize_saturates {K : Type} [LinearOrderedField K] [FloorRing K] (d : K) :
    (31.875 ≤ d → d < 536870880 → quantize d = some 255) ∧
    (d ≤ -31.875 → -536870943 < d → quantize d = some 0) := by
  constructor
  · intro h0 h1
    have hx0 : (0 : K) ≤ 127.5 + d * 4 := by norm_num at h0 ⊢; linarith
    have hx1 : 127.5 + d * 4 < (2147483648 : K) := by norm_num at h1 ⊢; linarith
    have hfl : (255 : ℤ) ≤ ⌊127.5 + d * 4⌋ := by
      rw [Int.le_floor]; push_cast; norm_num at h0 ⊢; linarith
    unfold quantize
    rw [toInt_of_nonneg _ hx0 hx1]
    simp only [Option.bind_eq_bind, Option.some_bind]
    congr 1
    split_ifs <;> omega
  · intro h0 h1
    have hx0 : 127.5 + d * 4 ≤ (0 : K) := by norm_num at h0 ⊢; linarith
    have hx1 : (-2147483648 : K) < 127.5 + d * 4 := by norm_num at h1 ⊢; linarith
    have hc0 : ⌈127.5 + d * 4⌉ ≤ 0 := by
      rw [Int.ceil_le]; exact_mod_cast hx0
    have hc1 : (-2147483648 : ℤ) ≤ ⌈127.5 + d * 4⌉ := by
      rw [Int.le_ceil_iff]; push_cast; linarith
    have hf0 : ⌊127.5 + d * 4⌋ ≤ 0 := le_trans (Int.floor_le_ceil _) hc0
    have hf1 : 0 ≤ 127.5 + d * 4 → ⌊127.5 + d * 4⌋ = 0 := by
      intro hge
      have : 127.5 + d * 4 = 0 := le_antisymm hx0 hge
      rw [this]; simp
    unfold quantize toInt INT_MIN INT_MAX
    by_cases hge : 0 ≤ 127.5 + d * 4
    · simp [hge, hf1 hge]
    · simp only [if_neg hge]
      rw [if_pos ⟨hc1, by omega⟩]
      simp only [Option.bind_eq_bind, Option.some_bind]
      by_cases hz : ⌈127.5 + d * 4⌉ < 0
      · simp [hz]
      · have : ⌈127.5 + d * 4⌉ = 0 := by omega
        simp [this]

end Pixels

theorem sqrt_DT_INF : Real.sqrt (DT_INF : ℝ) = 1000000000000000 := by
  have h : (DT_INF : ℝ) = 1000000000000000 ^ 2 := by unfold DT_INF; norm_num
  rw [h, Real.sqrt_sq (by norm_num)]

theorem seedLine_range : ∀ p, p < 3 → 0 ≤ seedLine p ∧ seedLine p ≤ DT_INF := by
  intro p _
  have h : (0 : ℚ) < DT_INF := DT_INF_pos
  unfold seedLine
  split_ifs
  · exact ⟨le_rfl, h.le⟩
  · exact ⟨h.le, le_rfl⟩

theorem seedGrid_range : ∀ x y, x < 3 → y < 3 →
    0 ≤ seedGrid (y * 3 + x) ∧ seedGrid (y * 3 + x) ≤ DT_INF := by
  intro x y _ _
  have h : (0 : ℚ) < DT_INF := DT_INF_pos
  unfold seedGrid
  split_ifs
  · exact ⟨le_rfl, h.le⟩
  · exact ⟨h.le, le_rfl⟩

theorem centreDot_scenario :
    ∀ x y, x < 5 → y < 5 → (128 < centreDot (y * 8 + x) ↔ x = 2 ∧ y = 2) := by
  intro x y hx hy
  unfold centreDot
  interval_cases x <;> interval_cases y <;> simp

theorem centreDot_seeds : ∀ x, x < 5 → ∀ y, y < 5 →
    boundaryTest centreDot 5 5 8 x y =
      decide ((x = 2 ∧ y = 2) ∨ (x = 1 ∧ y = 2) ∨ (x = 2 ∧ y = 1) ∨ (x = 2 ∧ y = 3)) := by
  decide

/-- In the end-to-end scenario (a `5 × 5` image whose only foreground pixel is the
centre) the pixel pipeline of `main` runs to its end, stores the signed distance
`-0.5` for the centre pixel and writes `125` to the centre byte. -/
theorem main_centre (bits : Nat → Nat) (pitch : Nat) (hp : 5 ≤ pitch)
    (hb : ∀ x y, x < 5 → y < 5 → (128 < bits (y * pitch + x) ↔ x = 2 ∧ y = 2)) :
    ∃ out, main Real.sqrt bits 5 5 pitch = some out ∧
      out.2 (2 * 5 + 2) = -(1 / 2) ∧ out.1 (2 * pitch + 2) = 125 := by
  have hI : (0 : ℝ) < DT_INF := DT_INF_pos
  -- boundary extraction
  obtain ⟨t1, ht1, hcost⟩ := extract_spec (K := ℝ) bits 5 5 pitch (fun _ => 0)
  have hrange : ∀ x y, x < 5 → y < 5 → 0 ≤ t1 (y * 5 + x) ∧ t1 (y * 5 + x) ≤ DT_INF := by
    intro x y hx hy
    rw [hcost x y hx hy]
    split_ifs
    · exact ⟨le_rfl, hI.le⟩
    · exact ⟨hI.le, le_rfl⟩
  have hC22 : C bits 5 5 pitch ((2 : ℕ) : ℤ) ((2 : ℕ) : ℤ) = 1 := by
    rw [C_on_grid bits 5 5 pitch (by decide) (by decide),
      if_pos ((hb 2 2 (by decide) (by decide)).mpr ⟨rfl, rfl⟩)]
  have hC12 : C bits 5 5 pitch (((2 : ℕ) : ℤ) - 1) ((2 : ℕ) : ℤ) = 0 := by
    have e : ((2 : ℕ) : ℤ) - 1 = ((1 : ℕ) : ℤ) := by norm_num
    rw [e, C_on_grid bits 5 5 pitch (by decide) (by decide), if_neg]
    intro hc
    exact absurd ((hb 1 2 (by decide) (by decide)).mp hc).1 (by decide)
  have hseed : t1 (2 * 5 + 2) = 0 := by
    rw [hcost 2 2 (by decide) (by decide)]
    have hbt : boundaryTest bits 5 5 pitch 2 2 = true := by
      unfold boundaryTest
      simp only [hC22, hC12, decide_eq_true_eq]
      exact Or.inl ⟨by decide, by decide⟩
    rw [if_pos hbt]
  -- distance transform
  obtain ⟨t2, ht2, hmin⟩ := dt_2d_core_spec id t1 t1 5 5 (by decide) (by decide) (by decide)
    (by decide) (fun _ _ h => h) hrange
  have hdist : ∀ x y, x < 5 → y < 5 → 0 ≤ t2 (y * 5 + x) ∧ t2 (y * 5 + x) ≤ 8 ∧
      (x = 2 → y = 2 → t2 (y * 5 + x) = 0) := by
    intro x y hx hy
    obtain ⟨⟨px, py, hpx, hpy, hval⟩, hle⟩ := hmin x y hx hy
    have h0 : 0 ≤ t2 (y * 5 + x) := by
      rw [hval]
      have := (hrange px py hpx hpy).1
      positivity
    have h1 := hle 2 2 (by decide) (by decide)
    rw [hseed] at h1
    have hx4 : (x : ℝ) ≤ 4 := by
      have : x ≤ 4 := by omega
      exact_mod_cast this
    have hy4 : (y : ℝ) ≤ 4 := by
      have : y ≤ 4 := by omega
      exact_mod_cast this
    have hx0 : (0 : ℝ) ≤ (x : ℝ) := Nat.cast_nonneg x
    have hy0 : (0 : ℝ) ≤ (y : ℝ) := Nat.cast_nonneg y
    push_cast at h1
    refine ⟨h0, by nlinarith, ?_⟩
    intro hx2 hy2
    subst hx2; subst hy2
    push_cast at h1
    norm_num at h1
    exact le_antisymm h1 h0
  -- sign fixup
  obtain ⟨t3, ht3, hfix⟩ := fixup_spec Real.sqrt bits 5 5 pitch t2
  have hsigned : ∀ x y, x < 5 → y < 5 → -(7 / 2) ≤ t3 (y * 5 + x) ∧ t3 (y * 5 + x) ≤ 3 := by
    intro x y hx hy
    obtain ⟨h0, h8, -⟩ := hdist x y hx hy
    have hs0 : 0 ≤ Real.sqrt (t2 (y * 5 + x)) := Real.sqrt_nonneg _
    have hs3 : Real.sqrt (t2 (y * 5 + x)) ≤ 3 :=
      Real.sqrt_le_iff.mpr ⟨by norm_num, by linarith⟩
    rw [hfix x y hx hy]
    split_ifs
    · constructor <;> linarith
    · constructor <;> linarith
  have hcentre : t3 (2 * 5 + 2) = -(1 / 2) := by
    rw [hfix 2 2 (by decide) (by decide), hC22, (hdist 2 2 (by decide) (by decide)).2.2 rfl rfl]
    simp
  -- convert and clamp
  obtain ⟨b, hb1, hb2⟩ := quantizeLoop_spec t3 5 5 pitch hp
    (fun x y => ⌊127.5 + t3 (y * 5 + x) * 4⌋)
    (fun x y hx hy => (quantize_mid _
      (by have := (hsigned x y hx hy).1; norm_num; linarith)
      (by have := (hsigned x y hx hy).2; norm_num; linarith)).1) bits
  refine ⟨(b, t3), ?_, hcentre, ?_⟩
  · have ht2b : dt_2d_inplace t1 5 5 = some t2 := ht2
    simp [main, ht1, ht2b, ht3, hb1]
  · show b (2 * pitch + 2) = 125
    rw [hb2 2 2 (by decide) (by decide)]
    have hf : ⌊(127.5 : ℝ) + t3 (2 * 5 + 2) * 4⌋ = 125 := by
      rw [hcentre, Int.floor_eq_iff]; norm_num
    simp only [hf]
    rfl

/-! ## The claims -/

section Claims

variable {K : Type} [LinearOrderedField K]

/-- C1. With exact arithmetic, for every length `n` with `1 ≤ n ≤ 4096` and every
cost array `f` whose `n` entries lie between `0` and the sentinel `DT_INF`,
`dt_1d(dst, f, n)` returns and has written, at every `q < n`, the minimum over
`p < n` of `(q - p)² + f[p]`: the value is attained at some `p` and is below the
value at every `p`. -/
theorem dt_1d_exact (n : Nat) (f dst : Nat → K) (h1 : 1 ≤ n) (h2 : n ≤ 4096)
    (hf : ∀ p, p < n → 0 ≤ f p ∧ f p ≤ DT_INF) :
    ∃ d, dt_1d dst f (n : ℤ) = some d ∧ ∀ q, q < n →
      (∃ p, p < n ∧ d q = ((q : K) - (p : K)) ^ 2 + f p) ∧
      ∀ p, p < n → d q ≤ ((q : K) - (p : K)) ^ 2 + f p := by
  obtain ⟨d, hd, hmin, -⟩ := dt_1d_spec f dst n h1 h2 hf
  exact ⟨d, hd, fun q hq => hmin q hq⟩

/-- C1 at the line `[DT_INF, 0, DT_INF]`. -/
theorem dt_1d_exact_witness :
    (1 ≤ 3 ∧ 3 ≤ 4096 ∧ ∀ p, p < 3 → 0 ≤ seedLine p ∧ seedLine p ≤ DT_INF) ∧
      ∃ d, dt_1d (fun _ => 0) seedLine ((3 : ℕ) : ℤ) = some d ∧ ∀ q : ℕ, q < 3 →
        (∃ p : ℕ, p < 3 ∧ d q = ((q : ℚ) - (p : ℚ)) ^ 2 + seedLine p) ∧
        ∀ p : ℕ, p < 3 → d q ≤ ((q : ℚ) - (p : ℚ)) ^ 2 + seedLine p :=
  ⟨⟨by decide, by decide, seedLine_range⟩,
    dt_1d_exact 3 seedLine (fun _ => 0) (by decide) (by decide) seedLine_range⟩

/-- C2. With exact arithmetic, for every width and height in `[1, 4096]` and every
cost grid `f` of that shape with entries between `0` and `DT_INF`, `dt_2d` (rows,
then columns) returns and has written at every `(x, y)` the minimum over the grid of
`(x - px)² + (y - py)² + f[px, py]`; this holds for `dst` disjoint from `src`,
whatever `dst` held, and for `dst` and `src` the same grid. -/
theorem dt_2d_exact (width height : Nat) (f : Nat → K) (hw0 : 1 ≤ width) (hw : width ≤ 4096)
    (hh0 : 1 ≤ height) (hh : height ≤ 4096)
    (hf : ∀ x y, x < width → y < height →
      0 ≤ f (y * width + x) ∧ f (y * width + x) ≤ DT_INF) :
    (∀ dst, ∃ d, dt_2d dst f width height = some d ∧
      ∀ x y, x < width → y < height → IsMin2D f width height x y (d (y * width + x))) ∧
    ∃ d, dt_2d_inplace f width height = some d ∧
      ∀ x y, x < width → y < height → IsMin2D f width height x y (d (y * width + x)) :=
  ⟨fun dst => dt_2d_core_spec (fun _ => f) f dst width height hw0 hw hh0 hh (fun _ _ _ => rfl) hf,
    dt_2d_core_spec id f f width height hw0 hw hh0 hh (fun _ _ h => h) hf⟩

/-- C2 at the `3 × 3` grid with a single seed at the centre. -/
theorem dt_2d_exact_witness :
    (1 ≤ 3 ∧ 3 ≤ 4096 ∧ ∀ x y, x < 3 → y < 3 →
      0 ≤ seedGrid (y * 3 + x) ∧ seedGrid (y * 3 + x) ≤ DT_INF) ∧
    (∀ dst, ∃ d, dt_2d dst seedGrid 3 3 = some d ∧
      ∀ x y, x < 3 → y < 3 → IsMin2D seedGrid 3 3 x y (d (y * 3 + x))) ∧
    ∃ d, dt_2d_inplace seedGrid 3 3 = some d ∧
      ∀ x y, x < 3 → y < 3 → IsMin2D seedGrid 3 3 x y (d (y * 3 + x)) :=
  ⟨⟨by decide, by decide, seedGrid_range⟩,
    dt_2d_exact 3 3 seedGrid (by decide) (by decide) (by decide) (by decide) seedGrid_range⟩

/-- C3, at the failing input: in the `2 × 1` image `[0, 255]` the pixel `(0, 0)` is
a background pixel, and the boundary extraction loop of `main` writes the cost `0`
for it (its right neighbour is foreground), not the sentinel. -/
theorem background_pixel_gets_seed :
    twoPixels (0 * 4 + 0) ≤ 128 ∧
      ∃ t : Nat → ℚ, forPixels 2 1 (fun x y t => some (extractPixel twoPixels 2 1 4 x y t))
        (fun _ => DT_INF) = some t ∧ t (0 * 2 + 0) = 0 := by
  refine ⟨by decide, ?_⟩
  obtain ⟨t, ht, h⟩ := extract_spec (K := ℚ) twoPixels 2 1 4 (fun _ => DT_INF)
  refine ⟨t, ht, ?_⟩
  rw [h 0 0 (by decide) (by decide)]
  have hb : boundaryTest twoPixels 2 1 4 0 0 = true := by decide
  rw [if_pos hb]

/-- C4. In the boundary extraction loop of `main`, for every image and every
foreground pixel `(x, y)` of it, the cost written is `0` if and only if one of the
four axis-aligned neighbours is not a foreground pixel of the grid (it is
background or lies off the grid), and it is the sentinel `DT_INF` otherwise. -/
theorem foreground_pixel_cost (bits : Nat → Nat) (w h pitch x y : Nat) (t0 : Nat → K)
    (hx : x < w) (hy : y < h) (hfg : 128 < bits (y * pitch + x)) :
    ∃ t, forPixels w h (fun x y t => some (extractPixel bits w h pitch x y t)) t0 = some t ∧
      (t (y * w + x) = 0 ↔
        (¬ Foreground bits w h pitch ((x : ℤ) - 1) y ∨ ¬ Foreground bits w h pitch ((x : ℤ) + 1) y ∨
          ¬ Foreground bits w h pitch x ((y : ℤ) - 1) ∨
          ¬ Foreground bits w h pitch x ((y : ℤ) + 1))) ∧
      (¬ (¬ Foreground bits w h pitch ((x : ℤ) - 1) y ∨
          ¬ Foreground bits w h pitch ((x : ℤ) + 1) y ∨
          ¬ Foreground bits w h pitch x ((y : ℤ) - 1) ∨
          ¬ Foreground bits w h pitch x ((y : ℤ) + 1)) → t (y * w + x) = DT_INF) := by
  obtain ⟨t, ht, h1⟩ := extract_spec (K := K) bits w h pitch t0
  refine ⟨t, ht, ?_⟩
  have hv : C bits w h pitch x y = 1 := by rw [C_on_grid bits w h pitch hx hy, if_pos hfg]
  have hI : (DT_INF : K) ≠ 0 := (DT_INF_pos (K := K)).ne'
  have hb : boundaryTest bits w h pitch x y = true ↔
      (¬ Foreground bits w h pitch ((x : ℤ) - 1) y ∨ ¬ Foreground bits w h pitch ((x : ℤ) + 1) y ∨
        ¬ Foreground bits w h pitch x ((y : ℤ) - 1) ∨
        ¬ Foreground bits w h pitch x ((y : ℤ) + 1)) := by
    unfold boundaryTest
    simp only [hv, decide_eq_true_eq, C_ne_one_iff]
    simp
  rw [h1 x y hx hy]
  constructor
  · rw [← hb]
    by_cases hc : boundaryTest bits w h pitch x y = true
    · simp [hc]
    · simp [hc, hI]
  · intro hn
    rw [← hb] at hn
    rw [if_neg hn]

/-- C4 at the centre pixel of a `3 × 3` image that is foreground everywhere. -/
theorem foreground_pixel_cost_witness :
    (1 < 3 ∧ 1 < 3 ∧ 128 < allForeground (1 * 4 + 1)) ∧
    ∃ t : Nat → ℚ, forPixels 3 3 (fun x y t => some (extractPixel allForeground 3 3 4 x y t))
        (fun _ => 0) = some t ∧
      (t (1 * 3 + 1) = 0 ↔
        (¬ Foreground allForeground 3 3 4 (((1 : ℕ) : ℤ) - 1) ((1 : ℕ) : ℤ) ∨
          ¬ Foreground allForeground 3 3 4 (((1 : ℕ) : ℤ) + 1) ((1 : ℕ) : ℤ) ∨
          ¬ Foreground allForeground 3 3 4 ((1 : ℕ) : ℤ) (((1 : ℕ) : ℤ) - 1) ∨
          ¬ Foreground allForeground 3 3 4 ((1 : ℕ) : ℤ) (((1 : ℕ) : ℤ) + 1))) ∧
      (¬ (¬ Foreground allForeground 3 3 4 (((1 : ℕ) : ℤ) - 1) ((1 : ℕ) : ℤ) ∨
          ¬ Foreground allForeground 3 3 4 (((1 : ℕ) : ℤ) + 1) ((1 : ℕ) : ℤ) ∨
          ¬ Foreground allForeground 3 3 4 ((1 : ℕ) : ℤ) (((1 : ℕ) : ℤ) - 1) ∨
          ¬ Foreground allForeground 3 3 4 ((1 : ℕ) : ℤ) (((1 : ℕ) : ℤ) + 1)) →
        t (1 * 3 + 1) = DT_INF) :=
  ⟨⟨by decide, by decide, by decide⟩,
    foreground_pixel_cost allForeground 3 3 4 1 1 (fun _ => 0) (by decide) (by decide)
      (by decide)⟩

end Claims

/-- C5. For every pixel `(x, y)` of the image whose squared distance `d` is
non-negative, the distance fixup loop of `main` stores `-sqrt(d) - 0.5` when the
pixel's intensity is above `128` and `sqrt(d)` otherwise, `sqrt(d)` being the
non-negative root of `d`; so a foreground pixel receives a value `≤ -0.5` and a
background pixel a value `≥ 0`. -/
theorem fixup_signed_distance (bits : Nat → Nat) (w h pitch x y : Nat) (temp : Nat → ℝ)
    (hx : x < w) (hy : y < h) (hd : 0 ≤ temp (y * w + x)) :
    ∃ t, forPixels w h (fun x y t => some (fixupPixel Real.sqrt bits w h pitch x y t)) temp
        = some t ∧
      t (y * w + x) = (if 128 < bits (y * pitch + x) then -Real.sqrt (temp (y * w + x)) - 1 / 2
        else Real.sqrt (temp (y * w + x))) ∧
      (0 ≤ Real.sqrt (temp (y * w + x)) ∧
        Real.sqrt (temp (y * w + x)) * Real.sqrt (temp (y * w + x)) = temp (y * w + x)) ∧
      (128 < bits (y * pitch + x) → t (y * w + x) ≤ -(1 / 2)) ∧
      (bits (y * pitch + x) ≤ 128 → 0 ≤ t (y * w + x)) := by
  obtain ⟨t, ht, h1⟩ := fixup_spec Real.sqrt bits w h pitch temp
  have hs : 0 ≤ Real.sqrt (temp (y * w + x)) := Real.sqrt_nonneg _
  have hval : t (y * w + x) = (if 128 < bits (y * pitch + x) then
      -Real.sqrt (temp (y * w + x)) - 1 / 2 else Real.sqrt (temp (y * w + x))) := by
    rw [h1 x y hx hy, C_on_grid bits w h pitch hx hy]
    by_cases hb : 128 < bits (y * pitch + x)
    · simp [hb]
    · simp [hb]
  refine ⟨t, ht, hval, ⟨hs, Real.mul_self_sqrt hd⟩, ?_, ?_⟩
  · intro hb
    rw [hval, if_pos hb]
    linarith
  · intro hb
    rw [hval, if_neg (not_lt.mpr hb)]
    exact hs

/-- C5 at the only pixel of a `1 × 1` foreground image with squared distance `4`. -/
theorem fixup_signed_distance_witness :
    (0 < 1 ∧ 0 < 1 ∧ (0 : ℝ) ≤ (fun _ => (4 : ℝ)) (0 * 1 + 0)) ∧
    ∃ t, forPixels 1 1 (fun x y t => some (fixupPixel Real.sqrt allForeground 1 1 4 x y t))
        (fun _ => (4 : ℝ)) = some t ∧
      t (0 * 1 + 0) = (if 128 < allForeground (0 * 4 + 0) then
        -Real.sqrt ((fun _ => (4 : ℝ)) (0 * 1 + 0)) - 1 / 2
        else Real.sqrt ((fun _ => (4 : ℝ)) (0 * 1 + 0))) ∧
      (0 ≤ Real.sqrt ((fun _ => (4 : ℝ)) (0 * 1 + 0)) ∧
        Real.sqrt ((fun _ => (4 : ℝ)) (0 * 1 + 0)) * Real.sqrt ((fun _ => (4 : ℝ)) (0 * 1 + 0))
          = (fun _ => (4 : ℝ)) (0 * 1 + 0)) ∧
      (128 < allForeground (0 * 4 + 0) → t (0 * 1 + 0) ≤ -(1 / 2)) ∧
      (allForeground (0 * 4 + 0) ≤ 128 → 0 ≤ t (0 * 1 + 0)) :=
  ⟨⟨by decide, by decide, by norm_num⟩,
    fixup_signed_distance allForeground 1 1 4 0 0 (fun _ => (4 : ℝ)) (by decide) (by decide)
      (by norm_num)⟩

/-- C6 as stated fails: at `d = 0.1` the convert-and-clamp step of `main` yields
`127`, the truncation of `127.9`, where the nearest integer is `128`. -/
theorem quantize_is_not_round :
    ¬ ∀ d : ℝ, -31.875 < d → d < 31.875 →
      quantize d = some (max 0 (min 255 (round (127.5 + d * 4)))) := by
  intro hall
  have h1 := hall (1 / 10) (by norm_num) (by norm_num)
  have h2 := (quantize_mid (1 / 10 : ℝ) (by norm_num) (by norm_num)).1
  have hf : ⌊(127.5 : ℝ) + 1 / 10 * 4⌋ = 127 := by
    rw [Int.floor_eq_iff]; norm_num
  have hr : round ((127.5 : ℝ) + 1 / 10 * 4) = 128 := by
    rw [round_eq, Int.floor_eq_iff]; norm_num
  rw [h2, hf, hr] at h1
  exact absurd h1 (by decide)

/-- C6, amended. For every real signed distance `d` strictly between `-31.875` and
`31.875`, the value written by the convert-and-clamp loop of `main` is the floor of
`127.5 + 4 d` (the conversion to `int` truncates), a value between `0` and `254`
that the clamps leave unchanged. -/
theorem quantize_truncates (d : ℝ) (h0 : -31.875 < d) (h1 : d < 31.875) :
    quantize d = some ⌊127.5 + d * 4⌋ ∧ 0 ≤ ⌊127.5 + d * 4⌋ ∧ ⌊127.5 + d * 4⌋ ≤ 254 :=
  quantize_mid d h0 h1

/-- C6, amended, at `d = 0`. -/
theorem quantize_truncates_witness :
    ((-31.875 : ℝ) < 0 ∧ (0 : ℝ) < 31.875) ∧
      quantize (0 : ℝ) = some ⌊127.5 + (0 : ℝ) * 4⌋ ∧ 0 ≤ ⌊127.5 + (0 : ℝ) * 4⌋ ∧
      ⌊127.5 + (0 : ℝ) * 4⌋ ≤ 254 :=
  ⟨⟨by norm_num, by norm_num⟩, quantize_truncates 0 (by norm_num) (by norm_num)⟩

/-- C7, at the failing input: the signed distance `10¹⁵` of a background pixel of
an image without seeds is above `31.875`, and the convert-and-clamp step of `main`
does not write `255` for it: `127.5 + 4 d` is outside the range of `int`, so the
conversion is undefined before the clamp is reached. -/
theorem quantize_sentinel_undefined :
    (31.875 : ℝ) ≤ 1000000000000000 ∧ quantize (1000000000000000 : ℝ) = none :=
  ⟨by norm_num, quantize_overflow _ (by norm_num)⟩

/-- C8, at the scenario's image: the boundary extraction loop of `main` gives the
cost `0` not only to the centre `(2, 2)` but also to the background pixel `(1, 2)`
left of it (whose right neighbour is foreground), and `dt_2d` then returns the
squared distance `0` at `(1, 2)`, an orthogonal neighbour of the centre (not `1`),
`1` at the diagonal neighbour `(1, 1)` (not `2`) and `5` at the corner `(0, 0)`
(not `8`). -/
theorem scenario_second_seed :
    centreDot (2 * 8 + 1) ≤ 128 ∧
    ∃ t d : Nat → ℚ,
      forPixels 5 5 (fun x y t => some (extractPixel centreDot 5 5 8 x y t)) (fun _ => 0)
        = some t ∧
      t (2 * 5 + 2) = 0 ∧ t (2 * 5 + 1) = 0 ∧
      dt_2d_inplace t 5 5 = some d ∧
      d (2 * 5 + 1) = 0 ∧ d (1 * 5 + 1) = 1 ∧ d (0 * 5 + 0) = 5 := by
  refine ⟨by decide, ?_⟩
  obtain ⟨t, ht, hcost0⟩ := extract_spec (K := ℚ) centreDot 5 5 8 (fun _ => 0)
  have hI : (0 : ℚ) < DT_INF := DT_INF_pos
  have hbig : (4095 * 4095 : ℚ) < DT_INF := DT_INF_big
  have hcost : ∀ x y, x < 5 → y < 5 → t (y * 5 + x) =
      if (x = 2 ∧ y = 2) ∨ (x = 1 ∧ y = 2) ∨ (x = 2 ∧ y = 1) ∨ (x = 2 ∧ y = 3) then 0
      else DT_INF := by
    intro x y hx hy
    rw [hcost0 x y hx hy, centreDot_seeds x hx y hy]
    simp only [decide_eq_true_eq]
  have hrange : ∀ x y, x < 5 → y < 5 → 0 ≤ t (y * 5 + x) ∧ t (y * 5 + x) ≤ DT_INF := by
    intro x y hx hy
    rw [hcost x y hx hy]
    split_ifs
    · exact ⟨le_rfl, hI.le⟩
    · exact ⟨hI.le, le_rfl⟩
  have h22 : t (2 * 5 + 2) = 0 := by
    rw [hcost 2 2 (by decide) (by decide)]; simp
  have h12 : t (2 * 5 + 1) = 0 := by
    rw [hcost 1 2 (by decide) (by decide)]; simp
  obtain ⟨d, hd, hmin⟩ := dt_2d_core_spec id t t 5 5 (by decide) (by decide) (by decide)
    (by decide) (fun _ _ h => h) hrange
  refine ⟨t, d, ht, h22, h12, hd, ?_, ?_, ?_⟩
  · obtain ⟨⟨px, py, hpx, hpy, hval⟩, hle⟩ := hmin 1 2 (by decide) (by decide)
    apply le_antisymm
    · have := hle 1 2 (by decide) (by decide)
      rw [h12] at this
      simpa using this
    · rw [hval]
      have := (hrange px py hpx hpy).1
      positivity
  · obtain ⟨⟨px, py, hpx, hpy, hval⟩, hle⟩ := hmin 1 1 (by decide) (by decide)
    apply le_antisymm
    · have := hle 1 2 (by decide) (by decide)
      rw [h12] at this
      norm_num at this
      exact this
    · rw [hval, hcost px py hpx hpy]
      interval_cases px <;> interval_cases py <;> norm_num <;> linarith
  · obtain ⟨⟨px, py, hpx, hpy, hval⟩, hle⟩ := hmin 0 0 (by decide) (by decide)
    apply le_antisymm
    · have := hle 1 2 (by decide) (by decide)
      rw [h12] at this
      norm_num at this
      exact this
    · rw [hval, hcost px py hpx hpy]
      interval_cases px <;> interval_cases py <;> norm_num <;> linarith

/-- C9 as stated fails: on the scenario's image the pixel pipeline of `main` writes
`125` to the centre byte, not `126`. -/
theorem scenario_centre_not_126 :
    ∃ out, main Real.sqrt centreDot 5 5 8 = some out ∧ out.1 (2 * 8 + 2) = 125 ∧
      out.1 (2 * 8 + 2) ≠ 126 := by
  obtain ⟨out, h1, -, h3⟩ := main_centre centreDot 8 (by decide) centreDot_scenario
  exact ⟨out, h1, h3, by rw [h3]; decide⟩

/-- C9, amended. For every `5 × 5` image whose pixels are all background except the
centre pixel, running extraction, `dt_2d`, the sign fixup and the quantisation
gives the centre pixel the signed distance `0 - 0.5 = -0.5` and writes the
quantised value `125`, the truncation of `127.5 + 4 · (-0.5) = 125.5`, to the centre
pixel of the 8-bit output. -/
theorem scenario_centre (bits : Nat → Nat) (pitch : Nat) (hp : 5 ≤ pitch)
    (hb : ∀ x y, x < 5 → y < 5 → (128 < bits (y * pitch + x) ↔ x = 2 ∧ y = 2)) :
    ∃ out, main Real.sqrt bits 5 5 pitch = some out ∧
      out.2 (2 * 5 + 2) = -(1 / 2) ∧ out.1 (2 * pitch + 2) = 125 :=
  main_centre bits pitch hp hb

/-- C9, amended, at the image `centreDot` of stride `8`. -/
theorem scenario_centre_witness :
    (5 ≤ 8 ∧ ∀ x y, x < 5 → y < 5 → (128 < centreDot (y * 8 + x) ↔ x = 2 ∧ y = 2)) ∧
    ∃ out, main Real.sqrt centreDot 5 5 8 = some out ∧
      out.2 (2 * 5 + 2) = -(1 / 2) ∧ out.1 (2 * 8 + 2) = 125 :=
  ⟨⟨by decide, centreDot_scenario⟩, scenario_centre centreDot 8 (by decide) centreDot_scenario⟩

/-- C10, first half and failure of the second: for every image of width and height
in `[1, 4096]` in which the boundary extraction marks no pixel, the extraction
writes the sentinel everywhere and `dt_2d` returns the sentinel as every squared
distance; but no pixel is quantised to `255`: the pixel pipeline of `main` does not
reach its end, the conversion to `int` of `127.5 + 4 · sqrt(DT_INF)` being
undefined. -/
theorem no_seed_image (bits : Nat → Nat) (w h pitch : Nat) (hw0 : 1 ≤ w) (hw : w ≤ 4096)
    (hh0 : 1 ≤ h) (hh : h ≤ 4096)
    (hno : ∀ x y, x < w → y < h → boundaryTest bits w h pitch x y = false) :
    (∃ t d : Nat → ℝ,
      forPixels w h (fun x y t => some (extractPixel bits w h pitch x y t)) (fun _ => 0) = some t ∧
      (∀ x y, x < w → y < h → t (y * w + x) = DT_INF) ∧
      dt_2d_inplace t w h = some d ∧
      (∀ x y, x < w → y < h → d (y * w + x) = DT_INF) ∧
      quantize (Real.sqrt (DT_INF : ℝ)) = none) ∧
    main Real.sqrt bits w h pitch = none := by
  have hI : (0 : ℝ) < DT_INF := DT_INF_pos
  obtain ⟨t1, ht1, hcost⟩ := extract_spec (K := ℝ) bits w h pitch (fun _ => 0)
  have hall : ∀ x y, x < w → y < h → t1 (y * w + x) = DT_INF := by
    intro x y hx hy
    rw [hcost x y hx hy, hno x y hx hy]
    simp
  obtain ⟨t2, ht2, hmin⟩ := dt_2d_core_spec id t1 t1 w h hw0 hw hh0 hh (fun _ _ h => h)
    (fun x y hx hy => by rw [hall x y hx hy]; exact ⟨hI.le, le_rfl⟩)
  have hdist : ∀ x y, x < w → y < h → t2 (y * w + x) = DT_INF := by
    intro x y hx hy
    obtain ⟨⟨px, py, hpx, hpy, hval⟩, hle⟩ := hmin x y hx hy
    apply le_antisymm
    · have := hle x y hx hy
      rw [hall x y hx hy] at this
      simpa using this
    · rw [hval, hall px py hpx hpy]
      have h1 : 0 ≤ ((x : ℝ) - (px : ℝ)) ^ 2 := by positivity
      have h2 : 0 ≤ ((y : ℝ) - (py : ℝ)) ^ 2 := by positivity
      linarith
  have hq : quantize (Real.sqrt (DT_INF : ℝ)) = none := by
    rw [sqrt_DT_INF]; exact quantize_overflow _ (by norm_num)
  have ht2b : dt_2d_inplace t1 w h = some t2 := ht2
  refine ⟨⟨t1, t2, ht1, hall, ht2b, hdist, hq⟩, ?_⟩
  obtain ⟨t3, ht3, hfix⟩ := fixup_spec Real.sqrt bits w h pitch t2
  -- the pixel `(0, 0)` is background: were it foreground, its left neighbour, off the
  -- grid, would differ from it
  have hC00 : C bits w h pitch ((0 : ℕ) : ℤ) ((0 : ℕ) : ℤ) = 0 := by
    rcases C_eq_zero_or_one bits w h pitch ((0 : ℕ) : ℤ) ((0 : ℕ) : ℤ) with h0 | h1
    · exact h0
    · exfalso
      have hbt := hno 0 0 (by omega) (by omega)
      have hleft : C bits w h pitch (((0 : ℕ) : ℤ) - 1) ((0 : ℕ) : ℤ) = 0 := by
        unfold C
        rw [if_neg]
        intro hc
        have := hc.1
        norm_num at this
      have : boundaryTest bits w h pitch 0 0 = true := by
        unfold boundaryTest
        simp only [h1, hleft, decide_eq_true_eq]
        exact Or.inl ⟨by decide, by decide⟩
      rw [this] at hbt
      exact absurd hbt (by decide)
  have h00 : t3 (0 * w + 0) = Real.sqrt DT_INF := by
    rw [hfix 0 0 (by omega) (by omega), hC00, hdist 0 0 (by omega) (by omega)]
    simp
  have hfail : forPixels w h (fun x y b => quantizePixel t3 w pitch x y b) bits = none :=
    forPixels_fail w h _ bits 0 0 (by omega) (by omega) (fun s => by
      unfold quantizePixel
      rw [h00, hq]
      rfl)
  simp [main, ht1, ht2b, ht3, hfail]

/-- C10 at a `1 × 1` image whose only pixel is `0`. -/
theorem no_seed_image_witness :
    (1 ≤ 1 ∧ 1 ≤ 4096 ∧ ∀ x y, x < 1 → y < 1 → boundaryTest (fun _ => 0) 1 1 4 x y = false) ∧
    ((∃ t d : Nat → ℝ,
      forPixels 1 1 (fun x y t => some (extractPixel (fun _ => 0) 1 1 4 x y t)) (fun _ => 0)
        = some t ∧
      (∀ x y, x < 1 → y < 1 → t (y * 1 + x) = DT_INF) ∧
      dt_2d_inplace t 1 1 = some d ∧
      (∀ x y, x < 1 → y < 1 → d (y * 1 + x) = DT_INF) ∧
      quantize (Real.sqrt (DT_INF : ℝ)) = none) ∧
    main Real.sqrt (fun _ => 0) 1 1 4 = none) :=
  have hno : ∀ x y, x < 1 → y < 1 → boundaryTest (fun _ => 0) 1 1 4 x y = false := by
    intro x y hx hy
    have hx0 : x = 0 := by omega
    have hy0 : y = 0 := by omega
    subst hx0; subst hy0
    decide
  ⟨⟨by decide, by decide, hno⟩,
    no_seed_image (fun _ => 0) 1 1 4 (by decide) (by decide) (by decide) (by decide) hno⟩

/-! ## Safety, lengths, envelope state, work and symmetry -/

section Totality

variable {K : Type} [LinearOrderedField K]

/-- One iteration of the evaluation loop of `dt_1d` on a lower envelope of all `n`
parabolas: the cursor loop stops at or before the rightmost parabola and the
iteration succeeds. -/
theorem fillStep_cursor {f : Nat → K} {n : Nat} {e : Envelope K} (hn0 : 1 ≤ n)
    (hn : n ≤ DT_MAX_DIMENSION) (he : EnvInv f (n - 1) e) (i : Nat) (hi : i < n)
    (st : Nat × (Nat → K)) (h1 : st.1 ≤ e.k) (h2 : st.1 = 0 ∨ e.boundary st.1 < (i : K)) :
    ∃ c2 d, advance e.z (i : K) (DT_MAX_DIMENSION - st.1) st.1 = some c2 ∧
      fillStep f e i st = some (c2, d) ∧ st.1 ≤ c2 ∧ c2 ≤ e.k ∧
      (c2 = 0 ∨ e.boundary c2 < ((i + 1 : ℕ) : K)) := by
  have hI : (4095 * 4095 : K) < DT_INF := DT_INF_big
  have hjI : (i : K) ≤ DT_INF := by
    have h5 : (i : K) ≤ 4095 := by
      have : i ≤ 4095 := by unfold DT_MAX_DIMENSION at hn; omega
      exact_mod_cast this
    linarith
  obtain ⟨c2, hadv, hc1, hc2, hc3, -⟩ :=
    advance_spec he (by omega) (i : K) hjI (e.k - st.1) st.1 (by omega) h2
  obtain ⟨c, d⟩ := st
  refine ⟨c2, _, hadv, fillStep_eq f e i c c2 _ d hadv (he.v_some c2 hc2), hc1, hc2, ?_⟩
  rcases hc3 with h | h
  · exact Or.inl h
  · refine Or.inr (lt_trans h ?_)
    push_cast; linarith

/-- Every prefix of the evaluation loop of `dt_1d` succeeds with its cursor at or
before the rightmost parabola. -/
theorem fill_cursor {f : Nat → K} {n : Nat} {e : Envelope K} (hn0 : 1 ≤ n)
    (hn : n ≤ DT_MAX_DIMENSION) (he : EnvInv f (n - 1) e) (dst : Nat → K) (j : Nat)
    (hj : j ≤ n) :
    ∃ st, forRange j (fillStep f e) (0, dst) = some st ∧ st.1 ≤ e.k ∧
      (st.1 = 0 ∨ e.boundary st.1 < (j : K)) :=
  forRange_inv
    (fun i (st : Nat × (Nat → K)) => st.1 ≤ e.k ∧ (st.1 = 0 ∨ e.boundary st.1 < (i : K)))
    j (fillStep f e) (0, dst) ⟨Nat.zero_le _, Or.inl rfl⟩
    (fun i hi st hst => by
      obtain ⟨c2, d, -, h2, -, h4, h5⟩ := fillStep_cursor hn0 hn he i (by omega) st hst.1 hst.2
      exact ⟨(c2, d), h2, h4, h5⟩)

/-- C19. With exact arithmetic, for every `n` with `1 ≤ n ≤ 4096` and every cost
array with entries in `[0, DT_INF]`: every intersection of a candidate with an
earlier index lies strictly between `-DT_INF` and `DT_INF`; the construction loop
reaches the state after every candidate `m < n`, with `k ≤ m`, `v[0] = 0` still in
place, every `v[i]`, `i ≤ k`, written and at most `m`, and the inner loop for the
next candidate stops at an index `j ≥ 0`; every prefix of the evaluation loop
succeeds with its cursor at most the final `k`; and `dt_1d` returns. In the
embedding an access out of bounds makes the result `none`. -/
theorem dt_1d_index_safety (n : Nat) (f dst : Nat → K) (h1 : 1 ≤ n) (h2 : n ≤ 4096)
    (hf : ∀ p, p < n → 0 ≤ f p ∧ f p ≤ DT_INF) :
    (∀ p q, p < q → q < n → -DT_INF < intersect f q p ∧ intersect f q p < DT_INF) ∧
    (∀ m, m < n → ∃ e, lowerEnvelope f m = some e ∧ e.k ≤ m ∧ e.v 0 = some 0 ∧
      (∀ i, i ≤ e.k → ∃ a, e.v i = some a ∧ a ≤ m) ∧
      (m + 1 < n → ∃ j s, popLoop f (m + 1) e.v e.z e.k = some (j, s) ∧ j ≤ e.k)) ∧
    (∃ e, lowerEnvelope f (n - 1) = some e ∧
      ∀ j, j ≤ n → ∃ st, forRange j (fillStep f e) (0, dst) = some st ∧ st.1 ≤ e.k) ∧
    ∃ d, dt_1d dst f (n : ℤ) = some d := by
  refine ⟨?_, ?_, ?_, ?_⟩
  · intro p q hpq hq
    exact intersect_bounds f hpq (lt_of_lt_of_le hq h2) (hf p (by omega)).1 (hf p (by omega)).2
      (hf q hq).1 (hf q hq).2
  · intro m hm
    obtain ⟨e, he, hinv⟩ := lowerEnvelope_spec f n h2 hf m hm
    refine ⟨e, he, hinv.k_le, ?_, fun i hi => ⟨e.apex i, hinv.v_some i hi, hinv.apex_le hi⟩, ?_⟩
    · rw [hinv.v_some 0 (Nat.zero_le _), hinv.v_zero]
    · intro hm1
      obtain ⟨j, hj, hpop, -, -⟩ := popLoop_spec f n m e h2 hm1 hf hinv e.k le_rfl
        (fun h => absurd h (lt_irrefl _))
      exact ⟨j, _, hpop, hj⟩
  · obtain ⟨e, he, hinv⟩ := lowerEnvelope_spec f n h2 hf (n - 1) (by omega)
    refine ⟨e, he, fun j hj => ?_⟩
    obtain ⟨st, hst, hc, -⟩ := fill_cursor h1 h2 hinv dst j hj
    exact ⟨st, hst, hc⟩
  · obtain ⟨d, hd, -, -⟩ := dt_1d_spec f dst n h1 h2 hf
    exact ⟨d, hd⟩

/-- C19 on the line `seedLine`. -/
theorem dt_1d_index_safety_witness :
    (1 ≤ 3 ∧ 3 ≤ 4096 ∧ ∀ p, p < 3 → 0 ≤ seedLine p ∧ seedLine p ≤ DT_INF) ∧
    ((∀ p q, p < q → q < 3 → -DT_INF < intersect seedLine q p ∧ intersect seedLine q p < DT_INF) ∧
    (∀ m, m < 3 → ∃ e, lowerEnvelope seedLine m = some e ∧ e.k ≤ m ∧ e.v 0 = some 0 ∧
      (∀ i, i ≤ e.k → ∃ a, e.v i = some a ∧ a ≤ m) ∧
      (m + 1 < 3 → ∃ j s, popLoop seedLine (m + 1) e.v e.z e.k = some (j, s) ∧ j ≤ e.k)) ∧
    (∃ e, lowerEnvelope seedLine (3 - 1) = some e ∧
      ∀ j, j ≤ 3 → ∃ st, forRange j (fillStep seedLine e) (0, fun _ => 0) = some st ∧
        st.1 ≤ e.k) ∧
    ∃ d, dt_1d (fun _ => 0) seedLine ((3 : ℕ) : ℤ) = some d) :=
  ⟨⟨by decide, by decide, seedLine_range⟩,
    dt_1d_index_safety 3 seedLine (fun _ => 0) (by decide) (by decide) seedLine_range⟩

theorem hugeHead_fails (dst : Nat → ℚ) : dt_1d dst hugeHead ((2 : ℕ) : ℤ) = none := by
  have hs : intersect hugeHead 1 0 ≤ -DT_INF := by
    unfold intersect hugeHead DT_INF
    norm_num
  have hpop : popLoop hugeHead 1 (Envelope.init : Envelope ℚ).v (Envelope.init : Envelope ℚ).z
      (Envelope.init : Envelope ℚ).k = none := by
    show popLoop hugeHead 1 _ _ 0 = none
    rw [popLoop_zero hugeHead 1 _ _ 0 (-DT_INF) (by simp [Envelope.init])
      (by simp [Envelope.init]), if_pos hs]
  have hpush : pushCandidate hugeHead 1 (Envelope.init : Envelope ℚ) = none := by
    unfold pushCandidate
    rw [hpop]; rfl
  have henv : lowerEnvelope hugeHead 1 = none := by
    unfold lowerEnvelope
    rw [forRange_succ]
    exact hpush
  have h1 : (((2 : ℕ) : ℤ) - 1).toNat = 1 := by decide
  unfold dt_1d
  rw [h1, henv]; rfl

/-- C13 as stated fails: on the line `[3e30, 0]` of length `2`, whose first entry
is above the sentinel, the intersection of candidate `1` with parabola `0` is at or
left of `z[0] = -DT_INF`, the inner loop decrements `k` to `-1` and reads `v[-1]`:
`dt_1d` does not stay in bounds. -/
theorem dt_1d_not_total_on_reals :
    (1 ≤ 2 ∧ 2 ≤ 4096) ∧ intersect hugeHead 1 0 ≤ -DT_INF ∧
      dt_1d (fun _ => 0) hugeHead ((2 : ℕ) : ℤ) = none := by
  refine ⟨⟨by decide, by decide⟩, ?_, hugeHead_fails _⟩
  unfold intersect hugeHead DT_INF
  norm_num

/-- C13, amended. For every `n` with `1 ≤ n ≤ 4096` and every cost array whose `n`
entries lie between `0` and the sentinel `DT_INF`, the envelope construction and
the evaluation of `dt_1d` run to their end without an access out of bounds (the
index `k` never becomes negative), every `dst[q]`, `q < n`, is written with the
value of one of the `n` parabolas at `q`, and nothing is written from `n` on. -/
theorem dt_1d_total (n : Nat) (f dst : Nat → K) (h1 : 1 ≤ n) (h2 : n ≤ 4096)
    (hf : ∀ p, p < n → 0 ≤ f p ∧ f p ≤ DT_INF) :
    ∃ e d, lowerEnvelope f (n - 1) = some e ∧ dt_1d dst f (n : ℤ) = some d ∧
      (∀ q, q < n → ∃ p, p < n ∧ d q = ((q : K) - (p : K)) ^ 2 + f p) ∧
      ∀ q, n ≤ q → d q = dst q := by
  obtain ⟨e, he, -⟩ := lowerEnvelope_spec f n h2 hf (n - 1) (by omega)
  obtain ⟨d, hd, hmin, hframe⟩ := dt_1d_spec f dst n h1 h2 hf
  exact ⟨e, d, he, hd, fun q hq => (hmin q hq).1, hframe⟩

/-- C13, amended, on the line `seedLine`. -/
theorem dt_1d_total_witness :
    (1 ≤ 3 ∧ 3 ≤ 4096 ∧ ∀ p, p < 3 → 0 ≤ seedLine p ∧ seedLine p ≤ DT_INF) ∧
    ∃ e d, lowerEnvelope seedLine (3 - 1) = some e ∧
      dt_1d (fun _ => 0) seedLine ((3 : ℕ) : ℤ) = some d ∧
      (∀ q : ℕ, q < 3 → ∃ p : ℕ, p < 3 ∧ d q = ((q : ℚ) - (p : ℚ)) ^ 2 + seedLine p) ∧
      ∀ q, 3 ≤ q → d q = (fun _ => (0 : ℚ)) q :=
  ⟨⟨by decide, by decide, seedLine_range⟩,
    dt_1d_total 3 seedLine (fun _ => 0) (by decide) (by decide) seedLine_range⟩

end Totality

section Lengths

variable {K : Type} [LinearOrderedField K]

/-- For a length `len ≤ 0` neither loop of `dt_1d` runs: the function returns with
`dst` untouched. -/
theorem dt_1d_nonpos (dst f : Nat → K) (len : ℤ) (h : len ≤ 0) : dt_1d dst f len = some dst := by
  have h1 : (len - 1).toNat = 0 := by omega
  have h2 : len.toNat = 0 := by omega
  unfold dt_1d lowerEnvelope
  rw [h1, h2]
  rfl

/-- On a line of equal costs no candidate pops anything: after `m` iterations of
the construction loop `k = m`, `v[m] = m` and `z[m]` is `m - 1/2` (`-DT_INF` for
`m = 0`), and the inner loop for the candidate `m + 1` stops at once. -/
theorem flat_pop (e : Envelope K) (m : Nat) (hk : e.k = m) (hv : e.v m = some m)
    (hz : e.z m = some (if m = 0 then -DT_INF else (m : K) - 1 / 2)) :
    popLoop (fun _ => (0 : K)) (m + 1) e.v e.z e.k = some (m, (m : K) + 1 / 2) := by
  have hs : intersect (fun _ => (0 : K)) (m + 1) m = (m : K) + 1 / 2 := by
    unfold intersect
    push_cast
    field_simp
    ring
  have hI : (0 : K) < DT_INF := DT_INF_pos
  have hm0 : (0 : K) ≤ (m : K) := Nat.cast_nonneg m
  have hlt : ¬ ((m : K) + 1 / 2 ≤ if m = 0 then -DT_INF else (m : K) - 1 / 2) := by
    split_ifs
    · intro hc; linarith
    · intro hc; linarith
  rw [hk]
  cases m with
  | zero =>
    rw [popLoop_zero _ _ _ _ _ _ hv hz, hs, if_neg hlt]
  | succ j =>
    rw [popLoop_succ _ _ _ _ j _ _ hv hz, hs, if_neg hlt]

theorem flat_envelope (m : Nat) (hm : m < DT_MAX_DIMENSION) :
    ∃ e : Envelope K, lowerEnvelope (fun _ => (0 : K)) m = some e ∧ e.k = m ∧ e.v m = some m ∧
      e.z m = some (if m = 0 then -DT_INF else (m : K) - 1 / 2) := by
  unfold lowerEnvelope
  exact forRange_inv
    (fun i (e : Envelope K) => e.k = i ∧ e.v i = some i ∧
      e.z i = some (if i = 0 then -DT_INF else (i : K) - 1 / 2))
    m (fun i e => pushCandidate (fun _ => (0 : K)) (i + 1) e) Envelope.init
    ⟨rfl, by simp [Envelope.init], by simp [Envelope.init]⟩
    (fun i hi e he => by
      have hpop := flat_pop e i he.1 he.2.1 he.2.2
      refine ⟨_, pushCandidate_eq _ (i + 1) e i _ hpop (by omega), rfl, ?_, ?_⟩
      · simp [Envelope.push]
      · have h1 : i + 1 ≠ 0 := Nat.succ_ne_zero i
        simp only [Envelope.push, if_neg h1]
        rw [Function.update_noteq (by omega), Function.update_same]
        congr 1
        push_cast
        ring)

/-- On a line of `4097` equal costs the construction loop of `dt_1d` reaches
`k = 4096` and writes `v[4096]`, outside `int v[DT_MAX_DIMENSION]`. -/
theorem flat_overflow (dst : Nat → K) : dt_1d dst (fun _ => (0 : K)) 4097 = none := by
  obtain ⟨e, he, hk, hv, hz⟩ := flat_envelope (K := K) 4095 (by decide)
  have hpop := flat_pop e 4095 hk hv hz
  have hpush : pushCandidate (fun _ => (0 : K)) (4095 + 1) e = none := by
    unfold pushCandidate
    rw [hpop]
    simp [store, DT_MAX_DIMENSION]
  have henv : lowerEnvelope (fun _ => (0 : K)) (4095 + 1) = none := by
    unfold lowerEnvelope at he ⊢
    rw [forRange_succ, he]
    exact hpush
  have h1 : ((4097 : ℤ) - 1).toNat = 4095 + 1 := by decide
  unfold dt_1d
  rw [h1, henv]
  rfl

end Lengths

/-- C12 as stated fails: `dt_1d` makes no check of `len`. Called with `len = 0` or
`len = -3` it returns normally, `dst` untouched and no error reported; called on a
line of `4097` equal costs it is not stopped either, and writes `v[4096]`. -/
theorem dt_1d_reports_no_error :
    dt_1d (fun _ => (7 : ℚ)) (fun _ => 0) 0 = some (fun _ => 7) ∧
    dt_1d (fun _ => (7 : ℚ)) (fun _ => 0) (-3) = some (fun _ => 7) ∧
    dt_1d (fun _ => (7 : ℚ)) (fun _ => 0) 4097 = none :=
  ⟨dt_1d_nonpos _ _ 0 (by decide), dt_1d_nonpos _ _ (-3) (by decide), flat_overflow _⟩

/-- C12, amended. `dt_1d` detects no bad length and reports no error: whenever
`len ≤ 0` it returns normally without writing to `dst` (neither loop runs; only
`v[0]`, `z[0]`, `z[1]` are written, within bounds); when `len` exceeds `4096`
nothing stops it, and on a line of `4097` equal costs it writes `v[4096]`, outside
the array. -/
theorem dt_1d_no_length_check {K : Type} [LinearOrderedField K] (dst f : Nat → K) (len : ℤ)
    (h : len ≤ 0) :
    dt_1d dst f len = some dst ∧ dt_1d dst (fun _ => (0 : K)) 4097 = none :=
  ⟨dt_1d_nonpos dst f len h, flat_overflow dst⟩

/-- C12, amended, at `len = -1`. -/
theorem dt_1d_no_length_check_witness :
    ((-1 : ℤ) ≤ 0) ∧
    (dt_1d (fun _ => (7 : ℚ)) seedLine (-1) = some (fun _ => 7) ∧
      dt_1d (fun _ => (7 : ℚ)) (fun _ => (0 : ℚ)) 4097 = none) :=
  ⟨by decide, dt_1d_no_length_check (fun _ => (7 : ℚ)) seedLine (-1) (by decide)⟩

section EnvelopeState

variable {K : Type} [LinearOrderedField K]

theorem intersect_den_ne {p q : Nat} (h : p ≠ q) :
    ((2 * (p : ℤ) - 2 * (q : ℤ) : ℤ) : K) ≠ 0 := by
  have h1 : (2 * (p : ℤ) - 2 * (q : ℤ) : ℤ) ≠ 0 := by omega
  exact_mod_cast h1

/-- C18. With exact arithmetic, for every cost array `f` and every two distinct
indices `p ≠ q`, `intersect(f, p, q)` is
`((f[p] + p²) - (f[q] + q²)) / (2p - 2q)`, it satisfies
`(s - p)² + f[p] = (s - q)² + f[q]`, it is the only value that does, and
`intersect(f, p, q) = intersect(f, q, p)`. -/
theorem intersect_crossover (f : Nat → K) (p q : Nat) (hpq : p ≠ q) :
    intersect f p q = ((f p + (p : K) ^ 2) - (f q + (q : K) ^ 2)) / (2 * (p : K) - 2 * (q : K)) ∧
    (intersect f p q - (p : K)) ^ 2 + f p = (intersect f p q - (q : K)) ^ 2 + f q ∧
    (∀ x : K, (x - (p : K)) ^ 2 + f p = (x - (q : K)) ^ 2 + f q → x = intersect f p q) ∧
    intersect f p q = intersect f q p := by
  have hd := intersect_den_ne (K := K) hpq
  have hd2 := intersect_den_ne (K := K) (Ne.symm hpq)
  push_cast at hd hd2
  have hform : intersect f p q =
      ((f p + (p : K) ^ 2) - (f q + (q : K) ^ 2)) / (2 * (p : K) - 2 * (q : K)) := by
    unfold intersect; push_cast; ring
  have hsymm : intersect f p q = intersect f q p := by
    unfold intersect; push_cast
    rw [div_eq_div_iff hd hd2]; ring
  refine ⟨hform, ?_, ?_, hsymm⟩
  · rw [hform]
    field_simp
    ring
  · intro x hx
    rw [hform, eq_div_iff hd]
    linear_combination (-1 : K) * hx

/-- C18 at the indices `0` and `1` of the line `seedLine`. -/
theorem intersect_crossover_witness :
    (0 ≠ 1) ∧
    (intersect seedLine 0 1 =
      ((seedLine 0 + ((0 : ℕ) : ℚ) ^ 2) - (seedLine 1 + ((1 : ℕ) : ℚ) ^ 2)) /
        (2 * ((0 : ℕ) : ℚ) - 2 * ((1 : ℕ) : ℚ)) ∧
    (intersect seedLine 0 1 - ((0 : ℕ) : ℚ)) ^ 2 + seedLine 0 =
      (intersect seedLine 0 1 - ((1 : ℕ) : ℚ)) ^ 2 + seedLine 1 ∧
    (∀ x : ℚ, (x - ((0 : ℕ) : ℚ)) ^ 2 + seedLine 0 = (x - ((1 : ℕ) : ℚ)) ^ 2 + seedLine 1 →
      x = intersect seedLine 0 1) ∧
    intersect seedLine 0 1 = intersect seedLine 1 0) :=
  ⟨by decide, intersect_crossover seedLine 0 1 (by decide)⟩

/-- C14. With exact arithmetic and costs in `[0, DT_INF]`, for every `q < n` the
construction loop of `dt_1d` reaches the state after candidate `q`, and in that state,
for every `i ≤ k` and every `x` with `z[i] ≤ x ≤ z[i + 1]`, the parabola rooted at
`v[i]` is below every parabola rooted at a processed index `p ≤ q`. -/
theorem lower_envelope_invariant (n : Nat) (f : Nat → K) (h2 : n ≤ 4096)
    (hf : ∀ p, p < n → 0 ≤ f p ∧ f p ≤ DT_INF) (q : Nat) (hq : q < n) :
    ∃ e, lowerEnvelope f q = some e ∧
      ∀ i, i ≤ e.k → ∃ a zl zr, e.v i = some a ∧ e.z i = some zl ∧ e.z (i + 1) = some zr ∧
        ∀ x : K, zl ≤ x → x ≤ zr → ∀ p, p ≤ q →
          (x - (a : K)) ^ 2 + f a ≤ (x - (p : K)) ^ 2 + f p := by
  obtain ⟨e, he, hinv⟩ := lowerEnvelope_spec f n h2 hf q hq
  refine ⟨e, he, fun i hi => ⟨e.apex i, e.boundary i, e.boundary (i + 1), hinv.v_some i hi,
    hinv.z_some i (by omega), hinv.z_some (i + 1) (by omega), ?_⟩⟩
  intro x hl hr p hp
  exact hinv.lower i hi x (Or.inr hl) (Or.inr hr) p hp

/-- C14 on the line `seedLine`, after candidate `2`. -/
theorem lower_envelope_invariant_witness :
    (3 ≤ 4096 ∧ (∀ p, p < 3 → 0 ≤ seedLine p ∧ seedLine p ≤ DT_INF) ∧ 2 < 3) ∧
    ∃ e, lowerEnvelope seedLine 2 = some e ∧
      ∀ i, i ≤ e.k → ∃ a zl zr, e.v i = some a ∧ e.z i = some zl ∧ e.z (i + 1) = some zr ∧
        ∀ x : ℚ, zl ≤ x → x ≤ zr → ∀ p : ℕ, p ≤ 2 →
          (x - (a : ℚ)) ^ 2 + seedLine a ≤ (x - (p : ℚ)) ^ 2 + seedLine p :=
  ⟨⟨by decide, seedLine_range, by decide⟩,
    lower_envelope_invariant 3 seedLine (by decide) seedLine_range 2 (by decide)⟩

/-- C15. With exact arithmetic and costs in `[0, DT_INF]`, after every iteration of
the construction loop of `dt_1d` the cells `v[0..k]` and `z[0..k+1]` are written,
`v[0] = 0`, `v` is strictly increasing on `[0, k]`, `z[0] = -DT_INF`,
`z[k + 1] = +DT_INF` and `z` is strictly increasing on `[0, k + 1]`. -/
theorem envelope_ordering (n : Nat) (f : Nat → K) (h2 : n ≤ 4096)
    (hf : ∀ p, p < n → 0 ≤ f p ∧ f p ≤ DT_INF) (m : Nat) (hm : m < n) :
    ∃ (e : Envelope K) (a : Nat → Nat) (b : Nat → K), lowerEnvelope f m = some e ∧
      (∀ i, i ≤ e.k → e.v i = some (a i)) ∧ (∀ i, i ≤ e.k + 1 → e.z i = some (b i)) ∧
      a 0 = 0 ∧ (∀ i j, i < j → j ≤ e.k → a i < a j) ∧
      b 0 = -DT_INF ∧ b (e.k + 1) = DT_INF ∧ (∀ i j, i < j → j ≤ e.k + 1 → b i < b j) := by
  obtain ⟨e, he, hinv⟩ := lowerEnvelope_spec f n h2 hf m hm
  exact ⟨e, e.apex, e.boundary, he, hinv.v_some, hinv.z_some, hinv.v_zero, hinv.v_mono,
    hinv.z_zero, hinv.z_top, hinv.z_mono⟩

/-- C15 on the line `seedLine`, after the second iteration. -/
theorem envelope_ordering_witness :
    (3 ≤ 4096 ∧ (∀ p, p < 3 → 0 ≤ seedLine p ∧ seedLine p ≤ DT_INF) ∧ 2 < 3) ∧
    ∃ (e : Envelope ℚ) (a : Nat → Nat) (b : Nat → ℚ), lowerEnvelope seedLine 2 = some e ∧
      (∀ i, i ≤ e.k → e.v i = some (a i)) ∧ (∀ i, i ≤ e.k + 1 → e.z i = some (b i)) ∧
      a 0 = 0 ∧ (∀ i j, i < j → j ≤ e.k → a i < a j) ∧
      b 0 = -DT_INF ∧ b (e.k + 1) = DT_INF ∧ (∀ i j, i < j → j ≤ e.k + 1 → b i < b j) :=
  ⟨⟨by decide, seedLine_range, by decide⟩,
    envelope_ordering 3 seedLine (by decide) seedLine_range 2 (by decide)⟩

end EnvelopeState

theorem tieLine_range : ∀ p, p < 3 → 0 ≤ tieLine p ∧ tieLine p ≤ DT_INF := by
  intro p _
  have h : (4095 * 4095 : ℚ) < DT_INF := DT_INF_big
  unfold tieLine
  split_ifs
  · constructor <;> linarith
  · constructor <;> linarith

/-- C17. With exact arithmetic and costs in `[0, DT_INF]`, in the state of the
construction loop of `dt_1d` after candidate `m`, with `k ≥ 1`, `p = v[k]`,
`b = z[k]` and `s = intersect(f, m + 1, p)` for the next candidate: when `s = b`
(and more generally when `s ≤ b`) the iteration ends with `k` not larger than
before, the candidate on top and `p` in none of the cells `v[0..k]`; when `s > b`
the iteration keeps `p` at its index and appends the candidate above it with
boundary `s`. -/
theorem tie_break_pops {K : Type} [LinearOrderedField K] (n : Nat) (f : Nat → K)
    (h2 : n ≤ 4096) (hf : ∀ p, p < n → 0 ≤ f p ∧ f p ≤ DT_INF) (m : Nat) (hm : m + 1 < n) :
    ∃ e, lowerEnvelope f m = some e ∧ ∀ p b, 1 ≤ e.k → e.v e.k = some p → e.z e.k = some b →
      (intersect f (m + 1) p = b → ∃ e2, pushCandidate f (m + 1) e = some e2 ∧ e2.k ≤ e.k ∧
        e2.v e2.k = some (m + 1) ∧ ∀ i, i ≤ e2.k → e2.v i ≠ some p) ∧
      (intersect f (m + 1) p ≤ b → ∃ e2, pushCandidate f (m + 1) e = some e2 ∧ e2.k ≤ e.k ∧
        e2.v e2.k = some (m + 1) ∧ ∀ i, i ≤ e2.k → e2.v i ≠ some p) ∧
      (b < intersect f (m + 1) p → ∃ e2, pushCandidate f (m + 1) e = some e2 ∧
        e2.k = e.k + 1 ∧ e2.v e.k = some p ∧ e2.v (e.k + 1) = some (m + 1) ∧
        e2.z (e.k + 1) = some (intersect f (m + 1) p)) := by
  obtain ⟨e, he, hinv⟩ := lowerEnvelope_spec f n h2 hf m (by omega)
  refine ⟨e, he, ?_⟩
  intro p b hk hv hz
  have hp : p = e.apex e.k := by
    have := hinv.v_some e.k le_rfl
    rw [hv] at this
    exact Option.some.inj this
  have hb : b = e.boundary e.k := by
    have := hinv.z_some e.k (by omega)
    rw [hz] at this
    exact Option.some.inj this
  have hkm := hinv.k_le
  have hpop_le : intersect f (m + 1) p ≤ b → ∃ e2, pushCandidate f (m + 1) e = some e2 ∧
      e2.k ≤ e.k ∧ e2.v e2.k = some (m + 1) ∧ ∀ i, i ≤ e2.k → e2.v i ≠ some p := by
    intro hs
    obtain ⟨j, hj, hpop, hbj, -⟩ := popLoop_spec f n m e h2 hm hf hinv e.k le_rfl
      (fun h => absurd h (lt_irrefl _))
    have hjk : j < e.k := by
      rcases Nat.lt_or_eq_of_le hj with h | h
      · exact h
      · exfalso
        rw [h, ← hp, ← hb] at hbj
        exact absurd hs (not_le.mpr hbj)
    refine ⟨_, pushCandidate_eq f (m + 1) e j _ hpop (by show j + 1 < 4096; omega), ?_, ?_, ?_⟩
    · show j + 1 ≤ e.k
      omega
    · show Function.update e.v (j + 1) (some (m + 1)) (j + 1) = some (m + 1)
      rw [Function.update_same]
    · intro i hi hc
      have hi2 : i ≤ j + 1 := hi
      have hc2 : Function.update e.v (j + 1) (some (m + 1)) i = some p := hc
      by_cases hij : i = j + 1
      · rw [hij, Function.update_same] at hc2
        have h1 : m + 1 = p := Option.some.inj hc2
        have h3 := hinv.apex_le (le_refl e.k)
        omega
      · rw [Function.update_noteq hij, hinv.v_some i (by omega)] at hc2
        have h1 : e.apex i = p := Option.some.inj hc2
        have h3 := hinv.v_mono i e.k (by omega) le_rfl
        omega
  refine ⟨fun hs => hpop_le (le_of_eq hs), hpop_le, ?_⟩
  intro hs
  obtain ⟨k2, hk2⟩ : ∃ k2, e.k = k2 + 1 := ⟨e.k - 1, by omega⟩
  have hpop : popLoop f (m + 1) e.v e.z e.k = some (e.k, intersect f (m + 1) p) := by
    rw [hk2, popLoop_succ f (m + 1) e.v e.z k2 p b (by rw [← hk2]; exact hv)
      (by rw [← hk2]; exact hz), if_neg (not_le.mpr hs)]
  refine ⟨_, pushCandidate_eq f (m + 1) e e.k _ hpop (by show e.k + 1 < 4096; omega), rfl, ?_, ?_, ?_⟩
  · show Function.update e.v (e.k + 1) (some (m + 1)) e.k = some p
    rw [Function.update_noteq (by omega)]
    exact hv
  · show Function.update e.v (e.k + 1) (some (m + 1)) (e.k + 1) = some (m + 1)
    rw [Function.update_same]
  · show Function.update (Function.update e.z (e.k + 1) (some _)) (e.k + 1 + 1) (some DT_INF)
      (e.k + 1) = some _
    rw [Function.update_noteq (by omega), Function.update_same]

/-- C17 on the line `[0, 1, 0]`, for the candidate `2`. -/
theorem tie_break_pops_witness :
    (3 ≤ 4096 ∧ (∀ p, p < 3 → 0 ≤ tieLine p ∧ tieLine p ≤ DT_INF) ∧ 1 + 1 < 3) ∧
    ∃ e, lowerEnvelope tieLine 1 = some e ∧ ∀ p b, 1 ≤ e.k → e.v e.k = some p →
        e.z e.k = some b →
      (intersect tieLine (1 + 1) p = b → ∃ e2, pushCandidate tieLine (1 + 1) e = some e2 ∧
        e2.k ≤ e.k ∧ e2.v e2.k = some (1 + 1) ∧ ∀ i, i ≤ e2.k → e2.v i ≠ some p) ∧
      (intersect tieLine (1 + 1) p ≤ b → ∃ e2, pushCandidate tieLine (1 + 1) e = some e2 ∧
        e2.k ≤ e.k ∧ e2.v e2.k = some (1 + 1) ∧ ∀ i, i ≤ e2.k → e2.v i ≠ some p) ∧
      (b < intersect tieLine (1 + 1) p → ∃ e2, pushCandidate tieLine (1 + 1) e = some e2 ∧
        e2.k = e.k + 1 ∧ e2.v e.k = some p ∧ e2.v (e.k + 1) = some (1 + 1) ∧
        e2.z (e.k + 1) = some (intersect tieLine (1 + 1) p)) :=
  ⟨⟨by decide, tieLine_range, by decide⟩,
    tie_break_pops 3 tieLine (by decide) tieLine_range 1 (by decide)⟩

/-- On the line `[0, 1, 0]` the tie of C17 occurs: after candidate `1` the state is
`k = 1`, `v[1] = 1`, `z[1] = 1`, and the intersection of candidate `2` with
parabola `1` is `1` again. -/
theorem tieLine_ties :
    ∃ e, lowerEnvelope tieLine 1 = some e ∧ e.k = 1 ∧ e.v 1 = some 1 ∧ e.z 1 = some 1 ∧
      intersect tieLine 2 1 = 1 := by
  have hs : intersect tieLine 1 0 = 1 := by
    unfold intersect tieLine; norm_num
  have hs2 : intersect tieLine 2 1 = 1 := by
    unfold intersect tieLine; norm_num
  have hI : (0 : ℚ) < DT_INF := DT_INF_pos
  have hpop : popLoop tieLine 1 (Envelope.init : Envelope ℚ).v (Envelope.init : Envelope ℚ).z
      (Envelope.init : Envelope ℚ).k = some (0, 1) := by
    show popLoop tieLine 1 _ _ 0 = _
    rw [popLoop_zero tieLine 1 _ _ 0 (-DT_INF) (by simp [Envelope.init])
      (by simp [Envelope.init]), hs, if_neg (by intro hc; linarith)]
  refine ⟨(Envelope.init : Envelope ℚ).push 0 1 1, ?_, rfl, ?_, ?_, hs2⟩
  · unfold lowerEnvelope
    rw [forRange_succ]
    exact pushCandidate_eq tieLine 1 Envelope.init 0 1 hpop (by decide)
  · simp [Envelope.push]
  · simp [Envelope.push]

section LinearWork

variable {K : Type} [LinearOrderedField K]

/-- The inner loop of the construction started at `k` and stopped at `j` has run
its body `k - j` times. -/
theorem popSteps_of_popLoop (f : Nat → K) (q : Nat) (v : Nat → Option Nat) (z : Nat → Option K) :
    ∀ k j s, popLoop f q v z k = some (j, s) → j ≤ k ∧ popSteps f q v z k = some (k - j) := by
  intro k
  induction k with
  | zero =>
    intro j s h
    cases hv : v 0 with
    | none => simp [popLoop, hv] at h
    | some p =>
      cases hz : z 0 with
      | none => simp [popLoop, hv, hz] at h
      | some b =>
        rw [popLoop_zero f q v z p b hv hz] at h
        by_cases hc : intersect f q p ≤ b
        · rw [if_pos hc] at h; exact absurd h (by simp)
        · rw [if_neg hc] at h
          have hj : j = 0 := by
            have := congrArg Prod.fst (Option.some.inj h)
            exact this.symm
          subst hj
          exact ⟨le_rfl, by simp [popSteps, hv, hz, hc]⟩
  | succ k ih =>
    intro j s h
    cases hv : v (k + 1) with
    | none => simp [popLoop, hv] at h
    | some p =>
      cases hz : z (k + 1) with
      | none => simp [popLoop, hv, hz] at h
      | some b =>
        rw [popLoop_succ f q v z k p b hv hz] at h
        by_cases hc : intersect f q p ≤ b
        · rw [if_pos hc] at h
          obtain ⟨h1, h2⟩ := ih j s h
          refine ⟨by omega, ?_⟩
          have h3 : k + 1 - j = (k - j) + 1 := by omega
          simp [popSteps, hv, hz, hc, h2, h3]
        · rw [if_neg hc] at h
          have hj : j = k + 1 := by
            have := congrArg Prod.fst (Option.some.inj h)
            exact this.symm
          subst hj
          exact ⟨le_rfl, by simp [popSteps, hv, hz, hc]⟩

/-- The cursor loop of the evaluation started at `k` and stopped at `c` has run its
body `c - k` times. -/
theorem advanceSteps_of_advance (z : Nat → Option K) (q : K) :
    ∀ fuel k c, advance z q fuel k = some c → k ≤ c ∧ advanceSteps z q fuel k = some (c - k) := by
  intro fuel
  induction fuel with
  | zero =>
    intro k c h
    simp [advance] at h
  | succ fuel ih =>
    intro k c h
    cases hz : z (k + 1) with
    | none => simp [advance, hz] at h
    | some b =>
      rw [advance_succ z q fuel k b hz] at h
      by_cases hc : b < q
      · rw [if_pos hc] at h
        obtain ⟨h1, h2⟩ := ih (k + 1) c h
        refine ⟨by omega, ?_⟩
        have h3 : c - k = (c - (k + 1)) + 1 := by omega
        simp [advanceSteps, hz, hc, h2, h3]
      · rw [if_neg hc] at h
        have hck : k = c := Option.some.inj h
        subst hck
        exact ⟨le_rfl, by simp [advanceSteps, hz, hc]⟩

theorem lowerEnvelope_succ (f : Nat → K) (m : Nat) :
    lowerEnvelope f (m + 1) = (lowerEnvelope f m).bind (pushCandidate f (m + 1)) := rfl

/-- The pops made while the candidates `1, …, m` are processed and the final `k`
add up to `m`: every candidate is pushed once and popped at most once. -/
theorem constructionSteps_spec (f : Nat → K) (n : Nat) (hn : n ≤ DT_MAX_DIMENSION)
    (hf : ∀ p, p < n → 0 ≤ f p ∧ f p ≤ DT_INF) :
    ∀ m, m < n → ∃ e c, lowerEnvelope f m = some e ∧ EnvInv f m e ∧
      constructionSteps f m = some c ∧ c + e.k = m := by
  intro m
  induction m with
  | zero =>
    intro _
    exact ⟨Envelope.init, 0, rfl, EnvInv.init f, rfl, rfl⟩
  | succ m ih =>
    intro hm
    obtain ⟨e, c, he, hinv, hc, hck⟩ := ih (by omega)
    obtain ⟨j, hj, hpop, hb, hR⟩ := popLoop_spec f n m e hn hm hf hinv e.k le_rfl
      (fun h => absurd h (lt_irrefl _))
    have hk := hinv.k_le
    have hpush := pushCandidate_eq f (m + 1) e j _ hpop (by unfold DT_MAX_DIMENSION at hn ⊢; omega)
    have hsteps := (popSteps_of_popLoop f (m + 1) e.v e.z e.k j _ hpop).2
    refine ⟨_, c + (e.k - j), ?_, hinv.push hn hm hf j hj hb hR, ?_, ?_⟩
    · rw [lowerEnvelope_succ, he]
      exact hpush
    · simp [constructionSteps, hc, he, hsteps]
    · show c + (e.k - j) + (j + 1) = m + 1
      omega

/-- The cursor advances made during the first `j` iterations of the evaluation loop
add up to the cursor's position, which is at most the final `k`. -/
theorem evaluationSteps_spec {f : Nat → K} {n : Nat} {e : Envelope K} (hn0 : 1 ≤ n)
    (hn : n ≤ DT_MAX_DIMENSION) (he : EnvInv f (n - 1) e) (dst : Nat → K) :
    ∀ j, j ≤ n → ∃ st, forRange j (fillStep f e) (0, dst) = some st ∧ st.1 ≤ e.k ∧
      (st.1 = 0 ∨ e.boundary st.1 < (j : K)) ∧ evaluationSteps f e dst j = some st.1 := by
  intro j
  induction j with
  | zero =>
    intro _
    exact ⟨(0, dst), rfl, Nat.zero_le _, Or.inl rfl, rfl⟩
  | succ j ih =>
    intro hj
    obtain ⟨st, hst, h1, h2, h3⟩ := ih (by omega)
    obtain ⟨c2, d, hadv, hfill, hc1, hc2, hc3⟩ := fillStep_cursor hn0 hn he j (by omega) st h1 h2
    have hsteps := (advanceSteps_of_advance e.z (j : K) _ st.1 c2 hadv).2
    refine ⟨(c2, d), ?_, hc2, hc3, ?_⟩
    · rw [forRange_succ, hst]
      exact hfill
    · have h4 : st.1 + (c2 - st.1) = c2 := by omega
      simp [evaluationSteps, h3, hst, hsteps, h4]

/-- C16. For every `n` with `1 ≤ n ≤ 4096` and every cost array with entries in
`[0, DT_INF]`, the body of the inner loop of the construction runs at most `n - 1`
times in total (together with the final `k` exactly `n - 1` times), and the cursor
of the evaluation advances at most `n - 1` times in total (at most the final `k`
times). -/
theorem dt_1d_linear_work (n : Nat) (f dst : Nat → K) (h1 : 1 ≤ n) (h2 : n ≤ 4096)
    (hf : ∀ p, p < n → 0 ≤ f p ∧ f p ≤ DT_INF) :
    ∃ e a b, lowerEnvelope f (n - 1) = some e ∧
      constructionSteps f (n - 1) = some a ∧ a + e.k = n - 1 ∧ a ≤ n - 1 ∧
      evaluationSteps f e dst n = some b ∧ b ≤ e.k ∧ b ≤ n - 1 := by
  obtain ⟨e, a, he, hinv, ha, hak⟩ := constructionSteps_spec f n h2 hf (n - 1) (by omega)
  obtain ⟨st, -, hb1, -, hb2⟩ := evaluationSteps_spec h1 h2 hinv dst n le_rfl
  have hk := hinv.k_le
  exact ⟨e, a, st.1, he, ha, hak, by omega, hb2, hb1, by omega⟩

/-- C16 on the line `[0, 1, 0]`. -/
theorem dt_1d_linear_work_witness :
    (1 ≤ 3 ∧ 3 ≤ 4096 ∧ ∀ p, p < 3 → 0 ≤ tieLine p ∧ tieLine p ≤ DT_INF) ∧
    ∃ e a b, lowerEnvelope tieLine (3 - 1) = some e ∧
      constructionSteps tieLine (3 - 1) = some a ∧ a + e.k = 3 - 1 ∧ a ≤ 3 - 1 ∧
      evaluationSteps tieLine e (fun _ => 0) 3 = some b ∧ b ≤ e.k ∧ b ≤ 3 - 1 :=
  ⟨⟨by decide, by decide, tieLine_range⟩,
    dt_1d_linear_work 3 tieLine (fun _ => 0) (by decide) (by decide) tieLine_range⟩

end LinearWork

section Symmetry

variable {K : Type} [LinearOrderedField K]

theorem DT_INF_big2 : (2 * (4095 * 4095) : K) < DT_INF := by unfold DT_INF; norm_num

theorem sq_sub_le (N x c : Nat) (hN : N ≤ 4096) (hx : x < N) (hc : c < N) :
    ((x : K) - (c : K)) ^ 2 ≤ 4095 * 4095 := by
  have hx1 : (x : K) ≤ 4095 := by
    have : x ≤ 4095 := by omega
    exact_mod_cast this
  have hc1 : (c : K) ≤ 4095 := by
    have : c ≤ 4095 := by omega
    exact_mod_cast this
  have hx0 : (0 : K) ≤ (x : K) := Nat.cast_nonneg x
  have hc0 : (0 : K) ≤ (c : K) := Nat.cast_nonneg c
  nlinarith

/-- On a grid whose only seed is at `(c, c)` the minimum over the grid is the
squared distance to `(c, c)`. -/
theorem single_seed_value (c : Nat) (f : Nat → K) (hN : 2 * c + 1 ≤ 4096)
    (hseed : f (c * (2 * c + 1) + c) = 0)
    (hrest : ∀ x y, x < 2 * c + 1 → y < 2 * c + 1 → (x ≠ c ∨ y ≠ c) →
      f (y * (2 * c + 1) + x) = DT_INF)
    (x y : Nat) (hx : x < 2 * c + 1) (hy : y < 2 * c + 1) (d : K)
    (hd : IsMin2D f (2 * c + 1) (2 * c + 1) x y d) :
    d = ((x : K) - (c : K)) ^ 2 + ((y : K) - (c : K)) ^ 2 := by
  obtain ⟨⟨px, py, hpx, hpy, hval⟩, hle⟩ := hd
  have hup := hle c c (by omega) (by omega)
  rw [hseed] at hup
  apply le_antisymm
  · linarith
  · by_cases hcc : px = c ∧ py = c
    · rw [hval, hcc.1, hcc.2, hseed]
      linarith
    · have hne : px ≠ c ∨ py ≠ c := by
        by_cases h1 : px = c
        · exact Or.inr (fun h2 => hcc ⟨h1, h2⟩)
        · exact Or.inl h1
      rw [hval, hrest px py hpx hpy hne]
      have h1 := sq_sub_le (K := K) (2 * c + 1) x c hN hx (by omega)
      have h2 := sq_sub_le (K := K) (2 * c + 1) y c hN hy (by omega)
      have h3 : (2 * (4095 * 4095) : K) < DT_INF := DT_INF_big2
      have h4 : 0 ≤ ((x : K) - (px : K)) ^ 2 := by positivity
      have h5 : 0 ≤ ((y : K) - (py : K)) ^ 2 := by positivity
      linarith

theorem single_seed_symmetric (c : Nat) (f : Nat → K) (hN : 2 * c + 1 ≤ 4096)
    (hseed : f (c * (2 * c + 1) + c) = 0)
    (hrest : ∀ x y, x < 2 * c + 1 → y < 2 * c + 1 → (x ≠ c ∨ y ≠ c) →
      f (y * (2 * c + 1) + x) = DT_INF)
    (d : Nat → K)
    (hd : ∀ x y, x < 2 * c + 1 → y < 2 * c + 1 →
      IsMin2D f (2 * c + 1) (2 * c + 1) x y (d (y * (2 * c + 1) + x))) :
    IsSymmetric (2 * c + 1) d := by
  have hval : ∀ x y, x < 2 * c + 1 → y < 2 * c + 1 →
      d (y * (2 * c + 1) + x) = ((x : K) - (c : K)) ^ 2 + ((y : K) - (c : K)) ^ 2 :=
    fun x y hx hy => single_seed_value c f hN hseed hrest x y hx hy _ (hd x y hx hy)
  have hmirror : ∀ x, x < 2 * c + 1 →
      (((2 * c + 1 - 1 - x : ℕ) : K) - (c : K)) ^ 2 = ((x : K) - (c : K)) ^ 2 := by
    intro x hx
    have h1 : 2 * c + 1 - 1 - x = 2 * c - x := by omega
    rw [h1, Nat.cast_sub (by omega)]
    push_cast
    ring
  intro x y hx hy
  refine ⟨?_, ?_, ?_⟩
  · rw [hval x y hx hy, hval y x hy hx]
    ring
  · rw [hval x y hx hy, hval (2 * c + 1 - 1 - x) y (by omega) hy, hmirror x hx]
  · rw [hval x y hx hy, hval x (2 * c + 1 - 1 - y) hx (by omega), hmirror y hy]

theorem single_seed_range (c : Nat) (f : Nat → K)
    (hseed : f (c * (2 * c + 1) + c) = 0)
    (hrest : ∀ x y, x < 2 * c + 1 → y < 2 * c + 1 → (x ≠ c ∨ y ≠ c) →
      f (y * (2 * c + 1) + x) = DT_INF) :
    ∀ x y, x < 2 * c + 1 → y < 2 * c + 1 →
      0 ≤ f (y * (2 * c + 1) + x) ∧ f (y * (2 * c + 1) + x) ≤ DT_INF := by
  intro x y hx hy
  have hI : (0 : K) < DT_INF := DT_INF_pos
  by_cases hcc : x = c ∧ y = c
  · rw [hcc.1, hcc.2, hseed]
    exact ⟨le_rfl, hI.le⟩
  · have hne : x ≠ c ∨ y ≠ c := by
      by_cases h1 : x = c
      · exact Or.inr (fun h2 => hcc ⟨h1, h2⟩)
      · exact Or.inl h1
    rw [hrest x y hx hy hne]
    exact ⟨hI.le, le_rfl⟩

/-- C11. For every odd `N = 2c + 1 ≤ 4096`, if the `N × N` cost grid has cost `0`
at the centre `(c, c)` and the sentinel `DT_INF` everywhere else, then `dt_2d`
returns (with `dst` disjoint from `src` and with `dst` and `src` the same grid) and
its output satisfies `d[x, y] = d[y, x] = d[N-1-x, y] = d[x, N-1-y]` for every
`(x, y)` of the grid. -/
theorem single_seed_symmetry (c : Nat) (f : Nat → K) (hN : 2 * c + 1 ≤ 4096)
    (hseed : f (c * (2 * c + 1) + c) = 0)
    (hrest : ∀ x y, x < 2 * c + 1 → y < 2 * c + 1 → (x ≠ c ∨ y ≠ c) →
      f (y * (2 * c + 1) + x) = DT_INF) :
    (∀ dst, ∃ d, dt_2d dst f (2 * c + 1) (2 * c + 1) = some d ∧ IsSymmetric (2 * c + 1) d) ∧
    ∃ d, dt_2d_inplace f (2 * c + 1) (2 * c + 1) = some d ∧ IsSymmetric (2 * c + 1) d := by
  have hf := single_seed_range c f hseed hrest
  constructor
  · intro dst
    obtain ⟨d, hd, hmin⟩ := dt_2d_core_spec (fun _ => f) f dst (2 * c + 1) (2 * c + 1)
      (by omega) hN (by omega) hN (fun _ _ _ => rfl) hf
    exact ⟨d, hd, single_seed_symmetric c f hN hseed hrest d hmin⟩
  · obtain ⟨d, hd, hmin⟩ := dt_2d_core_spec id f f (2 * c + 1) (2 * c + 1)
      (by omega) hN (by omega) hN (fun _ _ h => h) hf
    exact ⟨d, hd, single_seed_symmetric c f hN hseed hrest d hmin⟩

theorem seedGrid_rest : ∀ x y, x < 2 * 1 + 1 → y < 2 * 1 + 1 → (x ≠ 1 ∨ y ≠ 1) →
    seedGrid (y * (2 * 1 + 1) + x) = DT_INF := by
  intro x y hx hy hne
  unfold seedGrid
  rw [if_neg]
  omega

/-- C11 on the `3 × 3` grid with a single seed at the centre. -/
theorem single_seed_symmetry_witness :
    (2 * 1 + 1 ≤ 4096 ∧ seedGrid (1 * (2 * 1 + 1) + 1) = 0 ∧
      ∀ x y, x < 2 * 1 + 1 → y < 2 * 1 + 1 → (x ≠ 1 ∨ y ≠ 1) →
        seedGrid (y * (2 * 1 + 1) + x) = DT_INF) ∧
    ((∀ dst, ∃ d, dt_2d dst seedGrid (2 * 1 + 1) (2 * 1 + 1) = some d ∧
      IsSymmetric (2 * 1 + 1) d) ∧
    ∃ d, dt_2d_inplace seedGrid (2 * 1 + 1) (2 * 1 + 1) = some d ∧ IsSymmetric (2 * 1 + 1) d) :=
  ⟨⟨by decide, by simp [seedGrid], seedGrid_rest⟩,
    single_seed_symmetry 1 seedGrid (by decide) (by simp [seedGrid]) seedGrid_rest⟩

theorem Foreground.on_grid {bits : Nat → Nat} {w h pitch : Nat} {X Y : ℤ}
    (hfg : Foreground bits w h pitch X Y) :
    ∃ x y, x < w ∧ y < h ∧ 128 < bits (y * pitch + x) := by
  obtain ⟨hx0, hxw, hy0, hyh, hb⟩ := hfg
  refine ⟨X.toNat, Y.toNat, by omega, by omega, ?_⟩
  have hidx : (Y * (pitch : ℤ) + X).toNat = Y.toNat * pitch + X.toNat := by
    have h1 : Y = ((Y.toNat : ℕ) : ℤ) := (Int.toNat_of_nonneg hy0).symm
    have h2 : X = ((X.toNat : ℕ) : ℤ) := (Int.toNat_of_nonneg hx0).symm
    have h3 : Y * (pitch : ℤ) + X = ((Y.toNat * pitch + X.toNat : ℕ) : ℤ) := by
      push_cast
      rw [← h1, ← h2]
    rw [h3, Int.toNat_natCast]
  rw [hidx] at hb
  exact hb

/-- C20. For every image, the boundary extraction loop of `main` gives the cost `0`
to at least one pixel if and only if at least one pixel of the image has an
intensity above `128`. -/
theorem seeds_iff_foreground (bits : Nat → Nat) (w h pitch : Nat) (t0 : Nat → K) :
    ∃ t, forPixels w h (fun x y t => some (extractPixel bits w h pitch x y t)) t0 = some t ∧
      ((∃ x y, x < w ∧ y < h ∧ t (y * w + x) = 0) ↔
        ∃ x y, x < w ∧ y < h ∧ 128 < bits (y * pitch + x)) := by
  obtain ⟨t, ht, hcost⟩ := extract_spec (K := K) bits w h pitch t0
  refine ⟨t, ht, ?_⟩
  have hI : (DT_INF : K) ≠ 0 := (DT_INF_pos (K := K)).ne'
  have hseed : ∀ x y, x < w → y < h →
      (t (y * w + x) = 0 ↔ boundaryTest bits w h pitch x y = true) := by
    intro x y hx hy
    rw [hcost x y hx hy]
    by_cases hb : boundaryTest bits w h pitch x y = true
    · simp [hb]
    · simp [hb, hI]
  constructor
  · rintro ⟨x, y, hx, hy, h0⟩
    have hb := (hseed x y hx hy).mp h0
    unfold boundaryTest at hb
    simp only [decide_eq_true_eq] at hb
    rcases C_eq_zero_or_one bits w h pitch (x : ℤ) (y : ℤ) with hv | hv
    · rw [hv] at hb
      rcases hb with hb | hb | hb | hb
      · exact absurd rfl hb.1
      · rcases C_eq_zero_or_one bits w h pitch ((x : ℤ) + 1) (y : ℤ) with h1 | h1
        · exact absurd h1 hb
        · exact ((C_eq_one_iff _ _ _ _ _ _).mp h1).on_grid
      · rcases C_eq_zero_or_one bits w h pitch (x : ℤ) ((y : ℤ) - 1) with h1 | h1
        · exact absurd h1 hb
        · exact ((C_eq_one_iff _ _ _ _ _ _).mp h1).on_grid
      · rcases C_eq_zero_or_one bits w h pitch (x : ℤ) ((y : ℤ) + 1) with h1 | h1
        · exact absurd h1 hb
        · exact ((C_eq_one_iff _ _ _ _ _ _).mp h1).on_grid
    · exact ((C_eq_one_iff _ _ _ _ _ _).mp hv).on_grid
  · rintro ⟨x, y, hx, hy, hfg⟩
    -- the leftmost foreground pixel of the row `y` differs from its left neighbour
    have hex : ∃ x1, 128 < bits (y * pitch + x1) := ⟨x, hfg⟩
    have hle : Nat.find hex ≤ x := Nat.find_le hfg
    have hspec : 128 < bits (y * pitch + Nat.find hex) := Nat.find_spec hex
    have hx0 : Nat.find hex < w := by omega
    refine ⟨Nat.find hex, y, hx0, hy, (hseed _ y hx0 hy).mpr ?_⟩
    have hv : C bits w h pitch ((Nat.find hex : ℕ) : ℤ) (y : ℤ) = 1 := by
      rw [C_on_grid bits w h pitch hx0 hy, if_pos hspec]
    have hleft : C bits w h pitch (((Nat.find hex : ℕ) : ℤ) - 1) (y : ℤ) ≠ 1 := by
      rw [C_ne_one_iff]
      intro hc
      obtain ⟨hc0, -, -, -, hcb⟩ := hc
      have hpos : 1 ≤ Nat.find hex := by omega
      have hidx : ((y : ℤ) * (pitch : ℤ) + (((Nat.find hex : ℕ) : ℤ) - 1)).toNat
          = y * pitch + (Nat.find hex - 1) := by
        have h3 : (y : ℤ) * (pitch : ℤ) + (((Nat.find hex : ℕ) : ℤ) - 1)
            = ((y * pitch + (Nat.find hex - 1) : ℕ) : ℤ) := by
          push_cast [Nat.cast_sub hpos]
          ring
        rw [h3, Int.toNat_natCast]
      rw [hidx] at hcb
      exact Nat.find_min hex (by omega : Nat.find hex - 1 < Nat.find hex) hcb
    unfold boundaryTest
    simp only [hv, decide_eq_true_eq]
    exact Or.inl ⟨by decide, hleft⟩

end Symmetry

end DistanceTransform
